import Mathlib

set_option maxRecDepth 4000

/-!
Verification development for the Marktplaats feed generator
(`app.py`, the current pipeline; `main.py` is an earlier superseded draft
of the same functions).  Python strings are modelled as `List Char`,
Python's loosely typed cell values as `PyVal`, records (rows) as
association lists.  The string primitives below mirror Python's
`str.replace`, `str.split`, `str.strip`, `str.upper`, `str.startswith`
on the character-list representation.  Functions whose Python originals
loop by skipping over a matched pattern are written with an explicit
fuel argument (one fuel unit per loop step, `fuel = length` is always
enough since every step consumes at least one character); the wrappers
pass that fuel.
-/

/-- The whitespace set of Python's `str.strip()` (ASCII part). -/
def isSpaceL (c : Char) : Bool :=
  c == ' ' || c == '\t' || c == '\n' || c == '\r' || c == '\x0b' || c == '\x0c'

/-- `startsWithL pat s` : does `s` start with `pat`? (Python `str.startswith`.) -/
def startsWithL : List Char → List Char → Bool
  | [], _ => true
  | _ :: _, [] => false
  | p :: ps, c :: cs => p == c && startsWithL ps cs

/-- `occursL pat s` : does `pat` occur as a contiguous substring of `s`?
(Python `pat in s`.) -/
def occursL (pat : List Char) : List Char → Bool
  | [] => pat.isEmpty
  | c :: cs => startsWithL pat (c :: cs) || occursL pat cs

/-- Fuel-driven body of Python `str.replace`: replace every non-overlapping
occurrence of `pat` by `rep`, scanning left to right.  Out of fuel returns the
remaining input unchanged; `replaceL` always supplies enough fuel. -/
def replaceF (pat rep : List Char) : Nat → List Char → List Char
  | 0, s => s
  | _ + 1, [] => []
  | f + 1, c :: cs =>
    if startsWithL pat (c :: cs) then
      rep ++ replaceF pat rep f (List.drop pat.length (c :: cs))
    else
      c :: replaceF pat rep f cs

/-- Python `s.replace(pat, rep)` for a non-empty pattern. -/
def replaceL (pat rep s : List Char) : List Char :=
  replaceF pat rep s.length s

/-- Fuel-driven body of Python `str.split` on a non-empty separator. -/
def splitOnF (sep : List Char) : Nat → List Char → List (List Char)
  | 0, s => [s]
  | _ + 1, [] => [[]]
  | f + 1, c :: cs =>
    if startsWithL sep (c :: cs) then
      [] :: splitOnF sep f (List.drop sep.length (c :: cs))
    else
      match splitOnF sep f cs with
      | [] => [[c]]
      | h :: t => (c :: h) :: t

/-- Python `s.split(sep)` for a non-empty separator. -/
def splitOnL (sep s : List Char) : List (List Char) :=
  splitOnF sep s.length s

/-- Python `s.strip()`. -/
def stripL (s : List Char) : List Char :=
  ((s.dropWhile isSpaceL).reverse.dropWhile isSpaceL).reverse

/-- Python `s.upper()` (ASCII). -/
def toUpperL (s : List Char) : List Char := s.map Char.toUpper

/-- Last character of a character list, if any. -/
def lastChar (s : List Char) : Option Char := s.reverse.head?

-- ---------------------------------------------------------------------------
-- Basic lemmas about the string primitives
-- ---------------------------------------------------------------------------

theorem startsWithL_take {pat : List Char} :
    ∀ {s : List Char}, startsWithL pat s = true → s.take pat.length = pat := by
  induction pat with
  | nil => intro s _; simp
  | cons p ps ih =>
    intro s h
    cases s with
    | nil => simp [startsWithL] at h
    | cons c cs =>
      simp only [startsWithL, Bool.and_eq_true, beq_iff_eq] at h
      simp [h.1, List.take, ih h.2]

theorem occursL_head_mem {p : Char} {ps : List Char} :
    ∀ {s : List Char}, occursL (p :: ps) s = true → p ∈ s := by
  intro s
  induction s with
  | nil => intro h; simp [occursL, List.isEmpty] at h
  | cons c cs ih =>
    intro h
    simp only [occursL, Bool.or_eq_true] at h
    rcases h with h | h
    · cases cs with
      | nil =>
        simp only [startsWithL, Bool.and_eq_true, beq_iff_eq] at h
        simp [h.1]
      | cons d ds =>
        simp only [startsWithL, Bool.and_eq_true, beq_iff_eq] at h
        simp [h.1]
    · exact List.mem_cons_of_mem _ (ih h)

theorem replaceF_of_not_occurs {pat rep : List Char} :
    ∀ (f : Nat) (s : List Char), occursL pat s = false → replaceF pat rep f s = s := by
  intro f
  induction f with
  | zero => intro s _; rfl
  | succ f ih =>
    intro s h
    cases s with
    | nil => rfl
    | cons c cs =>
      simp only [occursL, Bool.or_eq_false_iff] at h
      simp [replaceF, h.1, ih cs h.2]

theorem replaceL_of_not_occurs {pat rep s : List Char}
    (h : occursL pat s = false) : replaceL pat rep s = s :=
  replaceF_of_not_occurs _ s h

theorem mem_replaceF {pat rep : List Char} {a : Char} :
    ∀ (f : Nat) (s : List Char), a ∈ replaceF pat rep f s → a ∈ s ∨ a ∈ rep := by
  intro f
  induction f with
  | zero => intro s h; exact Or.inl h
  | succ f ih =>
    intro s h
    cases s with
    | nil => simp [replaceF] at h
    | cons c cs =>
      cases hs : startsWithL pat (c :: cs) with
      | true =>
        simp only [replaceF, hs, if_true, List.mem_append] at h
        rcases h with h | h
        · exact Or.inr h
        · rcases ih _ h with h' | h'
          · exact Or.inl (List.mem_of_mem_drop h')
          · exact Or.inr h'
      | false =>
        simp [replaceF, hs] at h
        rcases h with h | h
        · exact Or.inl (by simp [h])
        · rcases ih _ h with h' | h'
          · exact Or.inl (List.mem_cons_of_mem _ h')
          · exact Or.inr h'

theorem mem_replaceL {pat rep s : List Char} {a : Char}
    (h : a ∈ replaceL pat rep s) : a ∈ s ∨ a ∈ rep :=
  mem_replaceF _ s h

theorem mem_replaceF_of_mem {pat rep : List Char} {a : Char} (hpat : a ∉ pat) :
    ∀ (f : Nat) (s : List Char), a ∈ s → a ∈ replaceF pat rep f s := by
  intro f
  induction f with
  | zero => intro s h; exact h
  | succ f ih =>
    intro s h
    cases s with
    | nil => simp at h
    | cons c cs =>
      cases hs : startsWithL pat (c :: cs) with
      | true =>
        have htake := startsWithL_take hs
        have hsplit : a ∈ (c :: cs).take pat.length ∨ a ∈ (c :: cs).drop pat.length := by
          rw [← List.mem_append, List.take_append_drop]; exact h
        rcases hsplit with h' | h'
        · rw [htake] at h'; exact absurd h' hpat
        · simp only [replaceF, hs, if_true, List.mem_append]
          exact Or.inr (ih _ h')
      | false =>
        simp only [replaceF, hs]
        simp only [Bool.false_eq_true, if_false, List.mem_cons]
        rcases List.mem_cons.mp h with h' | h'
        · exact Or.inl h'
        · exact Or.inr (ih _ h')

theorem not_mem_replaceF_single {a : Char} {rep : List Char} (hrep : a ∉ rep) :
    ∀ (f : Nat) (s : List Char), s.length ≤ f → a ∉ replaceF [a] rep f s := by
  intro f
  induction f with
  | zero =>
    intro s hs
    have : s = [] := List.eq_nil_of_length_eq_zero (Nat.le_zero.mp hs)
    simp [this, replaceF]
  | succ f ih =>
    intro s hs
    cases s with
    | nil => simp [replaceF]
    | cons c cs =>
      by_cases hc : c = a
      · have hsw : startsWithL [a] (c :: cs) = true := by
          simp [startsWithL, hc]
        simp only [replaceF, hsw, if_true, List.length_cons, List.drop_succ_cons,
          List.drop_zero, List.mem_append]
        intro h
        rcases h with h | h
        · exact hrep h
        · exact ih cs (Nat.le_of_succ_le_succ hs) h
      · have hsw : startsWithL [a] (c :: cs) = false := by
          simp [startsWithL]
          intro heq; exact absurd heq.symm hc
        simp only [replaceF, hsw]
        simp only [Bool.false_eq_true, if_false, List.mem_cons]
        intro h
        rcases h with h | h
        · exact hc h.symm
        · exact ih cs (Nat.le_of_succ_le_succ hs) h

theorem not_mem_replaceL_single {a : Char} {rep s : List Char} (hrep : a ∉ rep) :
    a ∉ replaceL [a] rep s :=
  not_mem_replaceF_single hrep _ s (Nat.le_refl _)

theorem head?_replaceF {p c : Char} {ps rep cs : List Char} (hne : c ≠ p) :
    ∀ (f : Nat), (replaceF (p :: ps) rep f (c :: cs)).head? = some c := by
  intro f
  cases f with
  | zero => rfl
  | succ f =>
    have hsw : startsWithL (p :: ps) (c :: cs) = false := by
      simp [startsWithL]
      intro h; exact absurd h.symm hne
    simp [replaceF, hsw]

theorem lastChar_append_of_ne_nil {l₁ l₂ : List Char} (h : l₂ ≠ []) :
    lastChar (l₁ ++ l₂) = lastChar l₂ := by
  unfold lastChar
  rw [List.reverse_append]
  cases hr : l₂.reverse with
  | nil => exact absurd (List.reverse_eq_nil_iff.mp hr) h
  | cons x xs => simp

theorem lastChar_cons_of_ne_nil {c : Char} {l : List Char} (h : l ≠ []) :
    lastChar (c :: l) = lastChar l := by
  have : c :: l = [c] ++ l := rfl
  rw [this, lastChar_append_of_ne_nil h]

theorem ne_nil_of_lastChar_some {l : List Char} {d : Char}
    (h : lastChar l = some d) : l ≠ [] := by
  intro hl; rw [hl] at h; simp [lastChar] at h


theorem mem_of_lastChar_some {l : List Char} {d : Char}
    (h : lastChar l = some d) : d ∈ l := by
  unfold lastChar at h
  have : d ∈ l.reverse := List.mem_of_mem_head? (Option.mem_def.mpr h)
  exact List.mem_reverse.mp this

theorem replaceF_nil {pat rep : List Char} : ∀ (f : Nat), replaceF pat rep f [] = [] := by
  intro f; cases f <;> rfl

theorem lastChar_replaceF {pat rep : List Char} {d : Char}
    (hpat : ∀ c ∈ pat, c = '\n') (hd : d ≠ '\n') :
    ∀ (f : Nat) (s : List Char), lastChar s = some d →
      lastChar (replaceF pat rep f s) = some d := by
  intro f
  induction f with
  | zero => intro s h; exact h
  | succ f ih =>
    intro s h
    cases s with
    | nil => simp [lastChar] at h
    | cons c cs =>
      cases hs : startsWithL pat (c :: cs) with
      | true =>
        have htake := startsWithL_take hs
        have hsplit := List.take_append_drop pat.length (c :: cs)
        have hdropne : (c :: cs).drop pat.length ≠ [] := by
          intro hdrop
          rw [hdrop, List.append_nil, htake] at hsplit
          have hdmem : d ∈ pat := by rw [hsplit]; exact mem_of_lastChar_some h
          exact hd (hpat d hdmem)
        have hlastdrop : lastChar ((c :: cs).drop pat.length) = some d := by
          have := @lastChar_append_of_ne_nil ((c :: cs).take pat.length) _ hdropne
          rw [hsplit] at this
          rw [← this]; exact h
        have hrec := ih _ hlastdrop
        simp only [replaceF, hs, if_true]
        rw [lastChar_append_of_ne_nil (ne_nil_of_lastChar_some hrec)]
        exact hrec
      | false =>
        simp only [replaceF, hs]
        simp only [Bool.false_eq_true, if_false]
        cases cs with
        | nil =>
          have hdc : d = c := by simp [lastChar] at h; exact h.symm
          rw [replaceF_nil, hdc]
          rfl
        | cons c₂ cs₂ =>
          have hlast : lastChar (c₂ :: cs₂) = some d := by
            rw [← @lastChar_cons_of_ne_nil c (c₂ :: cs₂) (by simp)]
            exact h
          have hrec := ih _ hlast
          rw [lastChar_cons_of_ne_nil (ne_nil_of_lastChar_some hrec)]
          exact hrec

theorem lastChar_replaceL {pat rep s : List Char} {d : Char}
    (hpat : ∀ c ∈ pat, c = '\n') (hd : d ≠ '\n') (h : lastChar s = some d) :
    lastChar (replaceL pat rep s) = some d :=
  lastChar_replaceF hpat hd _ s h

theorem head?_replaceL {p c : Char} {ps rep cs : List Char} (hne : c ≠ p) :
    (replaceL (p :: ps) rep (c :: cs)).head? = some c :=
  head?_replaceF hne _

theorem occursL_eq_false_of_head_not_mem {p : Char} {ps s : List Char}
    (h : p ∉ s) : occursL (p :: ps) s = false := by
  cases hb : occursL (p :: ps) s with
  | false => rfl
  | true => exact absurd (occursL_head_mem hb) h

theorem head?_dropWhile_not {p : Char → Bool} :
    ∀ {l : List Char} {a : Char}, (l.dropWhile p).head? = some a → p a = false := by
  intro l
  induction l with
  | nil => intro a h; simp [List.dropWhile] at h
  | cons x xs ih =>
    intro a h
    cases hx : p x with
    | true => rw [List.dropWhile_cons_of_pos hx] at h; exact ih h
    | false =>
      rw [List.dropWhile_cons_of_neg (by simp [hx])] at h
      simp only [List.head?_cons, Option.some.injEq] at h
      rw [← h]; exact hx

theorem lastChar_dropWhile_of_ne_nil {p : Char → Bool} {l : List Char}
    (h : l.dropWhile p ≠ []) : lastChar (l.dropWhile p) = lastChar l := by
  conv_rhs => rw [← @List.takeWhile_append_dropWhile _ p l]
  rw [lastChar_append_of_ne_nil h]

theorem dropWhile_eq_self_of_head {p : Char → Bool} {l : List Char} {c : Char}
    (hh : l.head? = some c) (hc : p c = false) : l.dropWhile p = l := by
  cases l with
  | nil => simp at hh
  | cons x xs =>
    simp only [List.head?_cons, Option.some.injEq] at hh
    rw [← hh] at hc
    exact List.dropWhile_cons_of_neg (by simp [hc])

theorem mem_of_mem_dropWhile {p : Char → Bool} :
    ∀ {l : List Char} {a : Char}, a ∈ l.dropWhile p → a ∈ l := by
  intro l
  induction l with
  | nil => intro a h; simp [List.dropWhile] at h
  | cons x xs ih =>
    intro a h
    cases hx : p x with
    | true =>
      rw [List.dropWhile_cons_of_pos hx] at h
      exact List.mem_cons_of_mem _ (ih h)
    | false =>
      rw [List.dropWhile_cons_of_neg (by simp [hx])] at h
      exact h

theorem mem_stripL {s : List Char} {a : Char} (h : a ∈ stripL s) : a ∈ s := by
  unfold stripL at h
  rw [List.mem_reverse] at h
  have h1 := mem_of_mem_dropWhile h
  rw [List.mem_reverse] at h1
  exact mem_of_mem_dropWhile h1

theorem mem_dropWhile_of_mem {p : Char → Bool} :
    ∀ {l : List Char} {a : Char}, a ∈ l → p a = false → a ∈ l.dropWhile p := by
  intro l
  induction l with
  | nil => intro a h _; simp at h
  | cons x xs ih =>
    intro a h ha
    cases hx : p x with
    | true =>
      rw [List.dropWhile_cons_of_pos hx]
      rcases List.mem_cons.mp h with h' | h'
      · rw [h'] at ha; rw [ha] at hx; cases hx
      · exact ih h' ha
    | false =>
      rw [List.dropWhile_cons_of_neg (by simp [hx])]
      exact h

theorem mem_stripL_of_mem {s : List Char} {a : Char}
    (h : a ∈ s) (ha : isSpaceL a = false) : a ∈ stripL s := by
  unfold stripL
  rw [List.mem_reverse]
  exact mem_dropWhile_of_mem (List.mem_reverse.mpr (mem_dropWhile_of_mem h ha)) ha

theorem head?_stripL_not_space {s : List Char} {c : Char}
    (h : (stripL s).head? = some c) : isSpaceL c = false := by
  unfold stripL at h
  have hY : lastChar (((s.dropWhile isSpaceL).reverse.dropWhile isSpaceL)) = some c := h
  have hne : (s.dropWhile isSpaceL).reverse.dropWhile isSpaceL ≠ [] :=
    ne_nil_of_lastChar_some hY
  rw [lastChar_dropWhile_of_ne_nil hne] at hY
  unfold lastChar at hY
  rw [List.reverse_reverse] at hY
  exact head?_dropWhile_not hY

theorem lastChar_stripL_not_space {s : List Char} {c : Char}
    (h : lastChar (stripL s) = some c) : isSpaceL c = false := by
  unfold stripL lastChar at h
  rw [List.reverse_reverse] at h
  exact head?_dropWhile_not h

theorem stripL_eq_self {s : List Char} {c d : Char}
    (hh : s.head? = some c) (hc : isSpaceL c = false)
    (hl : lastChar s = some d) (hd : isSpaceL d = false) : stripL s = s := by
  unfold stripL
  rw [dropWhile_eq_self_of_head hh hc]
  rw [dropWhile_eq_self_of_head (by exact hl) hd]
  exact List.reverse_reverse s

theorem stripL_eq_nil_of_all_space {s : List Char}
    (h : ∀ a ∈ s, isSpaceL a = true) : stripL s = [] := by
  unfold stripL
  have h1 : s.dropWhile isSpaceL = [] := by
    rw [List.dropWhile_eq_nil_iff]
    intro x hx; exact h x hx
  rw [h1]
  simp

/-- The newline patterns used by the text formatter. -/
def nl : List Char := ['\n']

def nl2 : List Char := ['\n', '\n']

def nl3 : List Char := ['\n', '\n', '\n']

/-- Fuel-driven body of the while loop
`while (3 newlines) in s: s = s.replace(3 newlines, 2 newlines)` in
`format_text_for_marktplaats`.  Each iteration strictly shortens the string
(the replaced pattern is longer than its replacement and occurs at least
once), so `length` many iterations always suffice. -/
def collapseF : Nat → List Char → List Char
  | 0, s => s
  | f + 1, s => if occursL nl3 s then collapseF f (replaceL nl3 nl2 s) else s

/-- The newline-collapsing while loop of `format_text_for_marktplaats`. -/
def collapseNl (s : List Char) : List Char := collapseF s.length s

theorem mem_collapseF {a : Char} :
    ∀ (f : Nat) (s : List Char), a ∈ collapseF f s → a ∈ s ∨ a = '\n' := by
  intro f
  induction f with
  | zero => intro s h; exact Or.inl h
  | succ f ih =>
    intro s h
    simp only [collapseF] at h
    by_cases hoc : occursL nl3 s = true
    · rw [if_pos hoc] at h
      rcases ih _ h with h' | h'
      · rcases mem_replaceL h' with h'' | h''
        · exact Or.inl h''
        · simp [nl2] at h''; exact Or.inr h''
      · exact Or.inr h'
    · rw [if_neg hoc] at h; exact Or.inl h

theorem mem_collapseF_of_mem {a : Char} (ha : a ≠ '\n') :
    ∀ (f : Nat) (s : List Char), a ∈ s → a ∈ collapseF f s := by
  intro f
  induction f with
  | zero => intro s h; exact h
  | succ f ih =>
    intro s h
    simp only [collapseF]
    by_cases hoc : occursL nl3 s = true
    · rw [if_pos hoc]
      exact ih _ (mem_replaceF_of_mem (by simp [nl3, ha]) _ _ h)
    · rw [if_neg hoc]; exact h

theorem head?_collapseF {c : Char} (hc : c ≠ '\n') :
    ∀ (f : Nat) (s : List Char), s.head? = some c → (collapseF f s).head? = some c := by
  intro f
  induction f with
  | zero => intro s h; exact h
  | succ f ih =>
    intro s h
    cases s with
    | nil => simp at h
    | cons x xs =>
      simp only [List.head?_cons, Option.some.injEq] at h
      subst h
      simp only [collapseF]
      by_cases hoc : occursL nl3 (x :: xs) = true
      · rw [if_pos hoc]
        apply ih
        exact head?_replaceL (by simpa [nl3] using hc)
      · rw [if_neg hoc]; rfl

theorem lastChar_collapseF {d : Char} (hd : d ≠ '\n') :
    ∀ (f : Nat) (s : List Char), lastChar s = some d →
      lastChar (collapseF f s) = some d := by
  intro f
  induction f with
  | zero => intro s h; exact h
  | succ f ih =>
    intro s h
    simp only [collapseF]
    by_cases hoc : occursL nl3 s = true
    · rw [if_pos hoc]
      exact ih _ (lastChar_replaceL (by intro c hc; simpa [nl3] using hc) hd h)
    · rw [if_neg hoc]; exact h

theorem collapseF_of_not_occurs {s : List Char}
    (h : occursL nl3 s = false) : ∀ (f : Nat), collapseF f s = s := by
  intro f
  cases f with
  | zero => rfl
  | succ f => simp [collapseF, h]

theorem splitOnF_ne_nil {sep : List Char} :
    ∀ (f : Nat) (s : List Char), splitOnF sep f s ≠ [] := by
  intro f
  cases f with
  | zero => intro s; simp [splitOnF]
  | succ f =>
    intro s
    cases s with
    | nil => simp [splitOnF]
    | cons c cs =>
      simp only [splitOnF]
      by_cases hs : startsWithL sep (c :: cs) = true
      · rw [if_pos hs]; simp
      · rw [if_neg hs]
        cases splitOnF sep f cs <;> simp

theorem mem_splitOnF {sep : List Char} {a : Char} :
    ∀ (f : Nat) (s p : List Char), p ∈ splitOnF sep f s → a ∈ p → a ∈ s := by
  intro f
  induction f with
  | zero =>
    intro s p hp ha
    simp only [splitOnF, List.mem_singleton] at hp
    rw [← hp]; exact ha
  | succ f ih =>
    intro s p hp ha
    cases s with
    | nil =>
      simp only [splitOnF, List.mem_singleton] at hp
      rw [hp] at ha; simp at ha
    | cons c cs =>
      simp only [splitOnF] at hp
      by_cases hs : startsWithL sep (c :: cs) = true
      · rw [if_pos hs] at hp
        rcases List.mem_cons.mp hp with h' | h'
        · rw [h'] at ha; simp at ha
        · exact List.mem_of_mem_drop (ih _ _ h' ha)
      · rw [if_neg hs] at hp
        cases hrec : splitOnF sep f cs with
        | nil => rw [hrec] at hp; simp only [List.mem_singleton] at hp
                 rw [hp] at ha
                 rcases List.mem_singleton.mp ha with h'
                 simp [h']
        | cons q qs =>
          rw [hrec] at hp
          rcases List.mem_cons.mp hp with h' | h'
          · rw [h'] at ha
            rcases List.mem_cons.mp ha with h'' | h''
            · simp [h'']
            · have : a ∈ q := h''
              exact List.mem_cons_of_mem _ (ih _ _ (hrec ▸ List.mem_cons_self q qs) this)
          · exact List.mem_cons_of_mem _ (ih _ _ (hrec ▸ List.mem_cons_of_mem _ h') ha)

theorem splitOnF_first {sep : List Char} {c : Char} {cs : List Char}
    (hs : startsWithL sep (c :: cs) = false) :
    ∀ (f : Nat), ∃ p rest, splitOnF sep f (c :: cs) = (c :: p) :: rest := by
  intro f
  cases f with
  | zero => exact ⟨cs, [], rfl⟩
  | succ f =>
    simp only [splitOnF]
    rw [if_neg (by simp [hs])]
    cases hrec : splitOnF sep f cs with
    | nil => exact ⟨[], [], rfl⟩
    | cons q qs => exact ⟨q, qs, rfl⟩

-- ---------------------------------------------------------------------------
-- format_text_for_marktplaats (app.py lines 137-167)
-- ---------------------------------------------------------------------------

def crlf : List Char := ['\r', '\n']

def cr : List Char := ['\r']

def brTok : List Char := "<br>".toList

def br2Tok : List Char := "<br><br>".toList

def bulletPat : List Char := "\n•".toList

def bulletRep : List Char := "<br>•".toList

/-- `f"<p>{para.replace(newline, br)}</p>"` from the paragraph loop. -/
def pWrap (p : List Char) : List Char :=
  "<p>".toList ++ replaceL nl brTok p ++ "</p>".toList

/-- `format_text_for_marktplaats` from `app.py`: normalize line endings and
trim; if the text already contains angle-bracket markup, collapse newline
runs and turn newlines into `<br>` markers; otherwise protect bullets, split
into paragraphs on blank lines, and wrap each non-blank paragraph in `<p>`. -/
def format_text_for_marktplaats (text : List Char) : List Char :=
  if text = [] then []
  else
    let s := stripL (replaceL cr nl (replaceL crlf nl text))
    if s = [] then []
    else if '<' ∈ s ∧ '>' ∈ s then
      replaceL nl brTok (replaceL nl2 br2Tok (collapseNl s))
    else
      let s2 := replaceL bulletPat bulletRep s
      let paragraphs := ((splitOnL nl2 s2).map stripL).filter (fun p => !p.isEmpty)
      (paragraphs.map pWrap).flatten

/-- Shape of every non-empty output of the formatter: already-marked-up,
single-line, trimmed text, which the formatter then leaves unchanged. -/
def FormattedShape (u : List Char) : Prop :=
  u ≠ [] ∧ '\n' ∉ u ∧ '\r' ∉ u ∧
  (∀ c, u.head? = some c → isSpaceL c = false) ∧
  (∀ c, lastChar u = some c → isSpaceL c = false) ∧
  '<' ∈ u ∧ '>' ∈ u

theorem lastChar_flatten_of_all {L : List (List Char)} :
    L ≠ [] → (∀ w ∈ L, lastChar w = some '>') → lastChar L.flatten = some '>' := by
  induction L with
  | nil => intro h _; exact absurd rfl h
  | cons w ws ih =>
    intro _ hall
    cases ws with
    | nil =>
      rw [List.flatten_cons, List.flatten_nil, List.append_nil]
      exact hall w (List.mem_cons_self _ _)
    | cons w2 t =>
      have hrec := ih (by simp) (fun x hx => hall x (List.mem_cons_of_mem _ hx))
      rw [List.flatten_cons, lastChar_append_of_ne_nil (ne_nil_of_lastChar_some hrec)]
      exact hrec

theorem lastChar_pWrap (p : List Char) : lastChar (pWrap p) = some '>' := by
  unfold pWrap
  rw [lastChar_append_of_ne_nil (by simp)]
  rfl

theorem formatted_fixed {u : List Char} (h : FormattedShape u) :
    format_text_for_marktplaats u = u := by
  obtain ⟨hne, hnl, hcr, hhead, hlast, hlt, hgt⟩ := h
  have h1 : replaceL crlf nl u = u :=
    replaceL_of_not_occurs (occursL_eq_false_of_head_not_mem hcr)
  have h2 : replaceL cr nl u = u :=
    replaceL_of_not_occurs (occursL_eq_false_of_head_not_mem hcr)
  obtain ⟨c, hc⟩ : ∃ c, u.head? = some c := by
    cases u with
    | nil => exact absurd rfl hne
    | cons x xs => exact ⟨x, rfl⟩
  obtain ⟨d, hd⟩ : ∃ d, lastChar u = some d := by
    cases hu : u.reverse with
    | nil => exact absurd (List.reverse_eq_nil_iff.mp hu) hne
    | cons x xs => exact ⟨x, by simp [lastChar, hu]⟩
  have h3 : stripL u = u := stripL_eq_self hc (hhead c hc) hd (hlast d hd)
  have h4 : collapseNl u = u :=
    collapseF_of_not_occurs (occursL_eq_false_of_head_not_mem hnl) _
  have h5 : replaceL nl2 br2Tok u = u :=
    replaceL_of_not_occurs (occursL_eq_false_of_head_not_mem hnl)
  have h6 : replaceL nl brTok u = u :=
    replaceL_of_not_occurs (occursL_eq_false_of_head_not_mem hnl)
  unfold format_text_for_marktplaats
  rw [if_neg hne, h1, h2, h3, if_neg hne, if_pos ⟨hlt, hgt⟩, h4, h5, h6]


theorem not_mem_norm {text : List Char} :
    '\r' ∉ replaceL cr nl (replaceL crlf nl text) :=
  not_mem_replaceL_single (by decide)

theorem startsWithL_cons_false {p c : Char} {ps cs : List Char} (h : c ≠ p) :
    startsWithL (p :: ps) (c :: cs) = false := by
  cases hq : p == c with
  | false => simp [startsWithL, hq]
  | true => exact absurd (beq_iff_eq.mp hq).symm h

theorem head?_replaceL' {pat rep : List Char} {p c : Char} {cs : List Char}
    (hp : pat.head? = some p) (hne : c ≠ p) :
    (replaceL pat rep (c :: cs)).head? = some c := by
  cases pat with
  | nil => simp at hp
  | cons q qs =>
    simp only [List.head?_cons, Option.some.injEq] at hp
    subst hp
    exact head?_replaceF hne _

theorem exists_cons_of_head? {l : List Char} {c : Char} (h : l.head? = some c) :
    ∃ t, l = c :: t := by
  cases l with
  | nil => simp at h
  | cons x xs =>
    simp only [List.head?_cons, Option.some.injEq] at h
    exact ⟨xs, by rw [h]⟩

theorem head?_collapseNl {c : Char} {s : List Char} (hc : c ≠ '\n')
    (h : s.head? = some c) : (collapseNl s).head? = some c :=
  head?_collapseF hc _ s h

theorem lastChar_collapseNl {d : Char} {s : List Char} (hd : d ≠ '\n')
    (h : lastChar s = some d) : lastChar (collapseNl s) = some d :=
  lastChar_collapseF hd _ s h

theorem mem_collapseNl {a : Char} {s : List Char} (h : a ∈ collapseNl s) :
    a ∈ s ∨ a = '\n' :=
  mem_collapseF _ s h

theorem mem_collapseNl_of_mem {a : Char} {s : List Char} (ha : a ≠ '\n')
    (h : a ∈ s) : a ∈ collapseNl s :=
  mem_collapseF_of_mem ha _ s h

theorem html_branch_shape {s : List Char} {c0 d0 : Char}
    (hc0 : s.head? = some c0) (hc0ns : isSpaceL c0 = false)
    (hd0 : lastChar s = some d0) (hd0ns : isSpaceL d0 = false)
    (hcrs : '\r' ∉ s) (hlt : '<' ∈ s) (hgt : '>' ∈ s) :
    FormattedShape (replaceL nl brTok (replaceL nl2 br2Tok (collapseNl s))) := by
  have hc0nl : c0 ≠ '\n' := by
    intro h; rw [h] at hc0ns; exact absurd hc0ns (by decide)
  have hd0nl : d0 ≠ '\n' := by
    intro h; rw [h] at hd0ns; exact absurd hd0ns (by decide)
  have hnlu : '\n' ∉ replaceL nl brTok (replaceL nl2 br2Tok (collapseNl s)) :=
    not_mem_replaceL_single (by decide)
  have hcru : '\r' ∉ replaceL nl brTok (replaceL nl2 br2Tok (collapseNl s)) := by
    intro h
    rcases mem_replaceL h with h | h
    · rcases mem_replaceL h with h | h
      · rcases mem_collapseNl h with h | h
        · exact hcrs h
        · cases h
      · revert h; decide
    · revert h; decide
  obtain ⟨t0, ht0⟩ := exists_cons_of_head? (head?_collapseNl hc0nl hc0)
  have hhead1 : (replaceL nl2 br2Tok (collapseNl s)).head? = some c0 := by
    rw [ht0]; exact head?_replaceL' (by rfl) hc0nl
  obtain ⟨t1, ht1⟩ := exists_cons_of_head? hhead1
  have hheadu : (replaceL nl brTok (replaceL nl2 br2Tok (collapseNl s))).head? =
      some c0 := by
    rw [ht1]; exact head?_replaceL' (by rfl) hc0nl
  have hlastu : lastChar (replaceL nl brTok (replaceL nl2 br2Tok (collapseNl s))) =
      some d0 := by
    apply lastChar_replaceL (by decide) hd0nl
    apply lastChar_replaceL (by decide) hd0nl
    exact lastChar_collapseNl hd0nl hd0
  refine ⟨?_, hnlu, hcru, ?_, ?_, ?_, ?_⟩
  · intro h; rw [h] at hheadu; simp at hheadu
  · intro c hc; rw [hheadu] at hc
    simp only [Option.some.injEq] at hc; rw [← hc]; exact hc0ns
  · intro c hc; rw [hlastu] at hc
    simp only [Option.some.injEq] at hc; rw [← hc]; exact hd0ns
  · apply mem_replaceF_of_mem (by decide)
    apply mem_replaceF_of_mem (by decide)
    exact mem_collapseNl_of_mem (by decide) hlt
  · apply mem_replaceF_of_mem (by decide)
    apply mem_replaceF_of_mem (by decide)
    exact mem_collapseNl_of_mem (by decide) hgt

theorem para_branch_shape {s : List Char} {c0 : Char}
    (hc0 : s.head? = some c0) (hc0ns : isSpaceL c0 = false)
    (hcrs : '\r' ∉ s) :
    FormattedShape (((((splitOnL nl2 (replaceL bulletPat bulletRep s)).map
      stripL).filter (fun p => !p.isEmpty)).map pWrap).flatten) := by
  have hc0nl : c0 ≠ '\n' := by
    intro h; rw [h] at hc0ns; exact absurd hc0ns (by decide)
  obtain ⟨s', hs'⟩ := exists_cons_of_head? hc0
  have hh2 : (replaceL bulletPat bulletRep s).head? = some c0 := by
    rw [hs']; exact head?_replaceL' (by rfl) hc0nl
  obtain ⟨t2, ht2⟩ := exists_cons_of_head? hh2
  have hmem_s2 : ∀ a, a ∈ replaceL bulletPat bulletRep s → a ∈ s ∨ a ∈ bulletRep :=
    fun a h => mem_replaceL h
  have hsw2 : startsWithL nl2 (c0 :: t2) = false := startsWithL_cons_false hc0nl
  obtain ⟨p0, rest0, hsplit0⟩ := splitOnF_first hsw2 (c0 :: t2).length
  have hsplit0' : splitOnL nl2 (replaceL bulletPat bulletRep s) = (c0 :: p0) :: rest0 := by
    rw [splitOnL, ht2]; exact hsplit0
  have hq0ne : stripL (c0 :: p0) ≠ [] := by
    intro hnil
    have : c0 ∈ stripL (c0 :: p0) :=
      mem_stripL_of_mem (List.mem_cons_self _ _) hc0ns
    rw [hnil] at this; simp at this
  have hq0mem : stripL (c0 :: p0) ∈
      (((splitOnL nl2 (replaceL bulletPat bulletRep s)).map stripL).filter
        (fun p => !p.isEmpty)) := by
    apply List.mem_filter.mpr
    refine ⟨?_, ?_⟩
    · apply List.mem_map_of_mem
      rw [hsplit0']
      exact List.mem_cons_self _ _
    · simp only [Bool.not_eq_true']
      cases hX : stripL (c0 :: p0) with
      | nil => exact absurd hX hq0ne
      | cons y ys => rfl
  have hpara : ∀ q ∈ (((splitOnL nl2 (replaceL bulletPat bulletRep s)).map
      stripL).filter (fun p => !p.isEmpty)), ∀ a ∈ q, a ∈ s ∨ a ∈ bulletRep := by
    intro q hq a ha
    have hq' := (List.mem_filter.mp hq).1
    obtain ⟨q0, hq0, hq0eq⟩ := List.mem_map.mp hq'
    rw [← hq0eq] at ha
    exact hmem_s2 a (mem_splitOnF _ _ _ hq0 (mem_stripL ha))
  obtain ⟨q0h, q0t, hq0cons⟩ : ∃ h t, (((splitOnL nl2 (replaceL bulletPat
      bulletRep s)).map stripL).filter (fun p => !p.isEmpty)) = h :: t := by
    cases hx : (((splitOnL nl2 (replaceL bulletPat bulletRep s)).map
        stripL).filter (fun p => !p.isEmpty)) with
    | nil => rw [hx] at hq0mem; simp at hq0mem
    | cons h t => exact ⟨h, t, rfl⟩
  have hnlw : ∀ w ∈ (((splitOnL nl2 (replaceL bulletPat bulletRep s)).map
      stripL).filter (fun p => !p.isEmpty)).map pWrap, '\n' ∉ w := by
    intro w hw
    obtain ⟨q, _, hqw⟩ := List.mem_map.mp hw
    rw [← hqw]
    unfold pWrap
    intro hmem
    rcases List.mem_append.mp hmem with h | h
    · rcases List.mem_append.mp h with h | h
      · revert h; decide
      · exact not_mem_replaceL_single (by decide) h
    · revert h; decide
  have hcrw : ∀ w ∈ (((splitOnL nl2 (replaceL bulletPat bulletRep s)).map
      stripL).filter (fun p => !p.isEmpty)).map pWrap, '\r' ∉ w := by
    intro w hw
    obtain ⟨q, hq, hqw⟩ := List.mem_map.mp hw
    rw [← hqw]
    unfold pWrap
    intro hmem
    rcases List.mem_append.mp hmem with h | h
    · rcases List.mem_append.mp h with h | h
      · revert h; decide
      · rcases mem_replaceL h with h | h
        · rcases hpara q hq _ h with h' | h'
          · exact hcrs h'
          · revert h'; decide
        · revert h; decide
    · revert h; decide
  have hlastw : ∀ w ∈ (((splitOnL nl2 (replaceL bulletPat bulletRep s)).map
      stripL).filter (fun p => !p.isEmpty)).map pWrap, lastChar w = some '>' := by
    intro w hw
    obtain ⟨q, _, hqw⟩ := List.mem_map.mp hw
    rw [← hqw]; exact lastChar_pWrap q
  have hflatlast : lastChar ((((splitOnL nl2 (replaceL bulletPat bulletRep
      s)).map stripL).filter (fun p => !p.isEmpty)).map pWrap).flatten = some '>' :=
    lastChar_flatten_of_all (by rw [hq0cons]; simp) hlastw
  have hflathead : (((((splitOnL nl2 (replaceL bulletPat bulletRep s)).map
      stripL).filter (fun p => !p.isEmpty)).map pWrap).flatten).head? = some '<' := by
    rw [hq0cons]
    simp only [List.map_cons, List.flatten_cons]
    unfold pWrap
    rfl
  refine ⟨?_, ?_, ?_, ?_, ?_, ?_, ?_⟩
  · intro h; rw [h] at hflathead; simp at hflathead
  · intro h
    obtain ⟨w, hw, haw⟩ := List.mem_flatten.mp h
    exact hnlw w hw haw
  · intro h
    obtain ⟨w, hw, haw⟩ := List.mem_flatten.mp h
    exact hcrw w hw haw
  · intro c hc
    rw [hflathead] at hc
    simp only [Option.some.injEq] at hc
    rw [← hc]; decide
  · intro c hc
    rw [hflatlast] at hc
    simp only [Option.some.injEq] at hc
    rw [← hc]; decide
  · rw [hq0cons]
    simp only [List.map_cons, List.flatten_cons]
    apply List.mem_append.mpr
    left
    unfold pWrap
    simp
  · rw [hq0cons]
    simp only [List.map_cons, List.flatten_cons]
    apply List.mem_append.mpr
    left
    unfold pWrap
    simp

theorem lastChar_some_of_ne_nil {l : List Char} (h : l ≠ []) :
    ∃ d, lastChar l = some d := by
  cases hx : l.reverse with
  | nil => exact absurd (List.reverse_eq_nil_iff.mp hx) h
  | cons x xs => exact ⟨x, by simp [lastChar, hx]⟩

theorem formatted_shape (text : List Char) :
    format_text_for_marktplaats text = [] ∨
      FormattedShape (format_text_for_marktplaats text) := by
  by_cases h1 : text = []
  · left; simp [format_text_for_marktplaats, h1]
  · by_cases h2 : stripL (replaceL cr nl (replaceL crlf nl text)) = []
    · left
      simp only [format_text_for_marktplaats]
      rw [if_neg h1, if_pos h2]
    · have hcrs : '\r' ∉ stripL (replaceL cr nl (replaceL crlf nl text)) :=
        fun h => not_mem_norm (mem_stripL h)
      obtain ⟨c0, hc0⟩ : ∃ c,
          (stripL (replaceL cr nl (replaceL crlf nl text))).head? = some c := by
        cases hx : stripL (replaceL cr nl (replaceL crlf nl text)) with
        | nil => exact absurd hx h2
        | cons x xs => exact ⟨x, rfl⟩
      have hc0ns : isSpaceL c0 = false := head?_stripL_not_space hc0
      obtain ⟨d0, hd0⟩ := lastChar_some_of_ne_nil h2
      have hd0ns : isSpaceL d0 = false := lastChar_stripL_not_space hd0
      by_cases h3 : '<' ∈ stripL (replaceL cr nl (replaceL crlf nl text)) ∧
          '>' ∈ stripL (replaceL cr nl (replaceL crlf nl text))
      · right
        have heq : format_text_for_marktplaats text =
            replaceL nl brTok (replaceL nl2 br2Tok
              (collapseNl (stripL (replaceL cr nl (replaceL crlf nl text))))) := by
          simp only [format_text_for_marktplaats]
          rw [if_neg h1, if_neg h2, if_pos h3]
        rw [heq]
        exact html_branch_shape hc0 hc0ns hd0 hd0ns hcrs h3.1 h3.2
      · right
        have heq : format_text_for_marktplaats text =
            ((((splitOnL nl2 (replaceL bulletPat bulletRep
                (stripL (replaceL cr nl (replaceL crlf nl text))))).map
              stripL).filter (fun p => !p.isEmpty)).map pWrap).flatten := by
          simp only [format_text_for_marktplaats]
          rw [if_neg h1, if_neg h2, if_neg h3]
        rw [heq]
        exact para_branch_shape hc0 hc0ns hcrs

/-- C9: the text formatter is idempotent — formatting the result of
formatting equals formatting once (no double-wrapping of paragraphs) — and
empty or whitespace-only input yields empty output.  The formatter is a
total Lean function, so it never throws. -/
theorem format_text_for_marktplaats_idempotent (text : List Char) :
    format_text_for_marktplaats (format_text_for_marktplaats text) =
      format_text_for_marktplaats text ∧
    ((∀ c ∈ text, isSpaceL c = true) → format_text_for_marktplaats text = []) := by
  constructor
  · rcases formatted_shape text with h | h
    · rw [h]; simp [format_text_for_marktplaats]
    · exact formatted_fixed h
  · intro hws
    by_cases h1 : text = []
    · simp [format_text_for_marktplaats, h1]
    · have hall : ∀ a ∈ replaceL cr nl (replaceL crlf nl text), isSpaceL a = true := by
        intro a ha
        rcases mem_replaceL ha with h | h
        · rcases mem_replaceL h with h' | h'
          · exact hws a h'
          · simp only [nl, List.mem_singleton] at h'
            rw [h']; decide
        · simp only [nl, List.mem_singleton] at h
          rw [h]; decide
      have h2 : stripL (replaceL cr nl (replaceL crlf nl text)) = [] :=
        stripL_eq_nil_of_all_space hall
      simp only [format_text_for_marktplaats]
      rw [if_neg h1, if_pos h2]

theorem format_text_for_marktplaats_idempotent_witness :
    format_text_for_marktplaats (format_text_for_marktplaats
      (' ' :: '\n' :: [' '])) = format_text_for_marktplaats (' ' :: '\n' :: [' ']) ∧
    format_text_for_marktplaats (' ' :: '\n' :: [' ']) = [] :=
  ⟨(format_text_for_marktplaats_idempotent _).1,
   (format_text_for_marktplaats_idempotent _).2 (by decide)⟩

-- ---------------------------------------------------------------------------
-- Data model: loosely typed spreadsheet cell values and records
-- ---------------------------------------------------------------------------

/-- A loosely typed cell value as delivered by the spreadsheet client:
either a string or an integer.  (Missing keys are `Option.none` at the
record level; float-valued cells are represented by their string forms.) -/
inductive PyVal where
  | vStr (s : List Char)
  | vInt (n : Int)
deriving DecidableEq

/-- A record (spreadsheet row): ordered association list from column name
to cell value. -/
abbrev Record := List (String × PyVal)

/-- `record.get(k)` — `None` (here `none`) when the key is absent. -/
def pyGet (r : Record) (k : String) : Option PyVal :=
  match r.find? (fun p => p.1 == k) with
  | some p => some p.2
  | none => none

/-- Python truthiness of a cell value (`''` and `0` are falsy). -/
def pyTruthyV : PyVal → Bool
  | .vStr s => !s.isEmpty
  | .vInt n => n != 0

/-- Python truthiness of `record.get(k)` (`None` is falsy). -/
def pyTruthy : Option PyVal → Bool
  | none => false
  | some v => pyTruthyV v

/-- One decimal digit character (`k` is taken mod 10). -/
def digitChar (k : Nat) : Char := Char.ofNat (48 + k % 10)

/-- Decimal digits of a natural number, most significant first
(fuel-driven; `n + 1` units of fuel always suffice). -/
def natToCharsF : Nat → Nat → List Char
  | 0, _ => []
  | f + 1, n => if n < 10 then [digitChar n] else natToCharsF f (n / 10) ++ [digitChar n]

/-- Python `str` of a cell value. -/
def pyStrV : PyVal → List Char
  | .vStr s => s
  | .vInt n =>
    if n < 0 then '-' :: natToCharsF (n.natAbs + 1) n.natAbs
    else natToCharsF (n.toNat + 1) n.toNat

/-- `str(record.get(k, ''))`. -/
def pyStrGetD (r : Record) (k : String) : List Char :=
  match pyGet r k with
  | none => []
  | some v => pyStrV v

/-- `clean_text` from `app.py`: `None` and blank both yield `""`, anything
else is stringified and stripped. -/
def clean_text (v : Option PyVal) : List Char :=
  match v with
  | none => []
  | some x => stripL (pyStrV x)

/-- Value of a decimal digit string (accumulator form). -/
def digitsVal : Nat → List Char → Nat
  | acc, [] => acc
  | acc, c :: cs => digitsVal (acc * 10 + (c.toNat - 48)) cs

/-- `int(float(s))` on a string: parse a (signed, optionally fractional)
decimal literal after stripping whitespace and truncate toward zero;
`none` models the `ValueError` of a failed parse. -/
def parseFloatTrunc? (s : List Char) : Option Int :=
  let t := stripL s
  let signed : Bool × List Char :=
    match t with
    | '-' :: r => (true, r)
    | '+' :: r => (false, r)
    | _ => (false, t)
  let ip := signed.2.takeWhile (fun c => c.isDigit)
  let rest := signed.2.dropWhile (fun c => c.isDigit)
  let ok : Bool :=
    match rest with
    | [] => !ip.isEmpty
    | c :: rs => c == '.' && rs.all (fun d => d.isDigit) && (!ip.isEmpty || !rs.isEmpty)
  if ok then
    let m : Int := Int.ofNat (digitsVal 0 ip)
    some (if signed.1 then -m else m)
  else none

/-- `int(float(v))` on a cell value. -/
def pyFloatInt? : PyVal → Option Int
  | .vStr s => parseFloatTrunc? s
  | .vInt n => some n

/-- `int(float(record.get(k)))`; `none` also models the `TypeError` on a
missing value (`float(None)`). -/
def pyFloatIntOpt? : Option PyVal → Option Int
  | none => none
  | some v => pyFloatInt? v

-- ---------------------------------------------------------------------------
-- Fallback resolvers (app.py lines 178-205)
-- ---------------------------------------------------------------------------

/-- `get_attribute_value_with_fallback` from `app.py`: for the `area_sqm`
attribute, blank/unparsable/non-positive values fall back to `"1"`,
otherwise the truncated integer is rendered; other attributes pass through
(`str(value) if value else ''`). -/
def get_attribute_value_with_fallback (key : String) (value : PyVal) : List Char :=
  if key == "area_sqm" then
    if pyTruthyV value = false || (stripL (pyStrV value)).isEmpty then "1".toList
    else
      match pyFloatInt? value with
      | none => "1".toList
      | some n => if n ≤ 0 then "1".toList else pyStrV (.vInt n)
  else
    if pyTruthyV value then pyStrV value else []

/-- Modelled from the spec (§4.4 `resolveArea`): parse as a real number,
truncate toward zero; if the parse fails or the result is ≤ 0 return `"1"`,
else the truncated integer as a string. -/
def resolveArea_spec (value : PyVal) : List Char :=
  match pyFloatInt? value with
  | none => "1".toList
  | some n => if n ≤ 0 then "1".toList else pyStrV (.vInt n)

/-- The two price types that require a strictly resolved price. -/
def types_requiring_price : List (List Char) :=
  ["FIXED_PRICE".toList, "BIDDING_FROM".toList]

/-- `get_price_with_fallback` from `app.py`. -/
def get_price_with_fallback (price_value : Option PyVal)
    (price_type : List Char) : Int :=
  if price_type ∈ types_requiring_price then
    if pyTruthy price_value = false then 1
    else
      match pyFloatIntOpt? price_value with
      | none => 1
      | some n => if n ≤ 0 then 1 else n
  else 0

/-- Modelled from the spec (§4.4 `resolvePrice`): for the two mandatory
price types, parse/truncate and return 1 on absent/unparsable/≤ 0 input,
else the truncated value; any other price type always yields 0. -/
def resolvePrice_spec (price_value : Option PyVal)
    (price_type : List Char) : Int :=
  if price_type ∈ types_requiring_price then
    match pyFloatIntOpt? price_value with
    | none => 1
    | some n => if n ≤ 0 then 1 else n
  else 0

theorem natToCharsF_ne_nil : ∀ (f n : Nat), 0 < f → natToCharsF f n ≠ [] := by
  intro f n hf
  cases f with
  | zero => cases hf
  | succ f =>
    unfold natToCharsF
    by_cases h : n < 10
    · rw [if_pos h]; simp
    · rw [if_neg h]; simp

theorem isSpaceL_digitChar (k : Nat) : isSpaceL (digitChar k) = false := by
  unfold digitChar
  have h : k % 10 < 10 := Nat.mod_lt _ (by norm_num)
  revert h
  generalize k % 10 = m
  intro h
  interval_cases m <;> decide

theorem mem_natToCharsF_not_space :
    ∀ (f n : Nat) (c : Char), c ∈ natToCharsF f n → isSpaceL c = false := by
  intro f
  induction f with
  | zero => intro n c h; simp [natToCharsF] at h
  | succ f ih =>
    intro n c h
    unfold natToCharsF at h
    by_cases hn : n < 10
    · rw [if_pos hn] at h
      simp only [List.mem_singleton] at h
      rw [h]; exact isSpaceL_digitChar n
    · rw [if_neg hn] at h
      rcases List.mem_append.mp h with h' | h'
      · exact ih _ _ h'
      · simp only [List.mem_singleton] at h'
        rw [h']; exact isSpaceL_digitChar n

theorem strip_pyStrV_int_isEmpty (n : Int) :
    (stripL (pyStrV (.vInt n))).isEmpty = false := by
  have hmem : ∃ c, c ∈ pyStrV (.vInt n) ∧ isSpaceL c = false := by
    simp only [pyStrV]
    by_cases hlt : n < 0
    · rw [if_pos hlt]
      exact ⟨'-', List.mem_cons_self _ _, by decide⟩
    · rw [if_neg hlt]
      cases hx : natToCharsF (n.toNat + 1) n.toNat with
      | nil => exact absurd hx (natToCharsF_ne_nil _ _ (Nat.succ_pos _))
      | cons c t =>
        refine ⟨c, List.mem_cons_self _ _, ?_⟩
        exact mem_natToCharsF_not_space _ _ _ (hx ▸ List.mem_cons_self c t)
  obtain ⟨c, hcmem, hcns⟩ := hmem
  have hc := mem_stripL_of_mem hcmem hcns
  cases hx : stripL (pyStrV (.vInt n)) with
  | nil => rw [hx] at hc; simp at hc
  | cons y ys => rfl

/-- C1: `get_price_with_fallback` coincides with the spec's `resolvePrice`:
for `FIXED_PRICE`/`BIDDING_FROM` it parses and truncates the raw price and
returns 1 when the value is absent, unparsable, or truncates to ≤ 0 and the
truncated value otherwise; for every other price-type token it returns 0
regardless of the input. -/
theorem get_price_with_fallback_correct (pv : Option PyVal) (pt : List Char) :
    get_price_with_fallback pv pt = resolvePrice_spec pv pt := by
  unfold get_price_with_fallback resolvePrice_spec
  by_cases hm : pt ∈ types_requiring_price
  · rw [if_pos hm, if_pos hm]
    rcases pv with _ | v
    · rfl
    · rcases v with s | n
      · rcases s with _ | ⟨c, cs⟩
        · rfl
        · simp [pyTruthy, pyTruthyV, pyFloatIntOpt?, pyFloatInt?]
      · by_cases hn : n = 0
        · subst hn; rfl
        · simp [pyTruthy, pyTruthyV, hn, pyFloatIntOpt?, pyFloatInt?]
  · rw [if_neg hm, if_neg hm]

/-- C6: resolving the `area_sqm` attribute value coincides with the spec's
`resolveArea` (parse as a real, truncate toward zero, `"1"` on failure or a
result ≤ 0, else the truncated integer as a string), and its result always
renders a positive integer — never a value ≤ 0. -/
theorem get_attribute_value_area_correct (v : PyVal) :
    get_attribute_value_with_fallback "area_sqm" v = resolveArea_spec v ∧
    (get_attribute_value_with_fallback "area_sqm" v = "1".toList ∨
      ∃ n : Int, 1 ≤ n ∧
        get_attribute_value_with_fallback "area_sqm" v = pyStrV (.vInt n)) := by
  have heq : get_attribute_value_with_fallback "area_sqm" v = resolveArea_spec v := by
    unfold get_attribute_value_with_fallback resolveArea_spec
    rw [if_pos (by decide)]
    cases v with
    | vStr s =>
      cases s with
      | nil => rfl
      | cons c cs =>
        by_cases hstrip : (stripL (c :: cs)).isEmpty = true
        · have hnil : stripL (c :: cs) = [] := by
            cases hx : stripL (c :: cs) with
            | nil => rfl
            | cons y ys => rw [hx] at hstrip; simp at hstrip
          have hparse : parseFloatTrunc? (c :: cs) = none := by
            simp [parseFloatTrunc?, hnil]
          simp [pyTruthyV, pyStrV, hstrip, pyFloatInt?, hparse]
        · simp [pyTruthyV, pyStrV, hstrip, pyFloatInt?]
    | vInt n =>
      by_cases hn : n = 0
      · subst hn; rfl
      · have htr : pyTruthyV (.vInt n) = true := by simp [pyTruthyV, hn]
        have hne := strip_pyStrV_int_isEmpty n
        simp [htr, hne, pyFloatInt?]
  refine ⟨heq, ?_⟩
  rw [heq]
  unfold resolveArea_spec
  cases hp : pyFloatInt? v with
  | none => exact Or.inl rfl
  | some n =>
    by_cases hn : n ≤ 0
    · exact Or.inl (by simp [hn])
    · exact Or.inr ⟨n, by omega, by simp [hn]⟩

-- ---------------------------------------------------------------------------
-- replace_text_tags (app.py lines 208-262)
-- ---------------------------------------------------------------------------

/-- The six template tags, in the iteration order of the `tag_mapping`
dictionary in `replace_text_tags`. -/
inductive Tag where
  | centreDesc
  | centerName
  | priceMirror
  | currency
  | areaMin
  | areaMax
deriving DecidableEq

/-- The token text of each tag (braces written as `\x7b`/`\x7d`). -/
def tagChars : Tag → List Char
  | .centreDesc => "\x7b\x7bCentre_description\x7d\x7d".toList
  | .centerName => "\x7b\x7bcenter_name\x7d\x7d".toList
  | .priceMirror => "\x7b\x7bprice\x7d\x7d".toList
  | .currency => "\x7b\x7bcurrency\x7d\x7d".toList
  | .areaMin => "\x7b\x7barea_Min\x7d\x7d".toList
  | .areaMax => "\x7b\x7barea_Max\x7d\x7d".toList

/-- `memory.get(k, '')`. -/
def lookupMem (mem : List (String × PyVal)) (k : String) : PyVal :=
  match mem.find? (fun p => p.1 == k) with
  | some p => p.2
  | none => .vStr []

/-- The resolution rule of each tag (`tag_mapping` lambdas): the
`Centre_description` tag reads the incrementally built substitution memory
and returns the stored value unconverted (no `str()` in the source), the
others read the original record through `clean_text` and always produce
strings. -/
def tagValue (r : Record) (mem : List (String × PyVal)) : Tag → PyVal
  | .centreDesc => lookupMem mem "Centre_description"
  | .centerName => .vStr (clean_text (pyGet r "center_name"))
  | .priceMirror => .vStr (clean_text (pyGet r "price (mirror)"))
  | .currency => .vStr "EUR".toList
  | .areaMin => .vStr (clean_text (pyGet r "area_sqm"))
  | .areaMax => .vStr (clean_text (pyGet r "area_max"))

/-- Is the cell value a Python `str`? -/
def pyIsStr : PyVal → Bool
  | .vStr _ => true
  | .vInt _ => false

/-- Tag iteration order of the `tag_mapping` dictionary. -/
def tagList : List Tag :=
  [.centreDesc, .centerName, .priceMirror, .currency, .areaMin, .areaMax]

/-- One iteration of the `for tag, get_value in tag_mapping.items()` loop:
if the token occurs in the current result, replace it and log one
replacement event.  This is the no-raise projection of the loop body: the
replacement value is stringified here, whereas `result.replace(tag, value)`
in the source raises `TypeError` on a non-string value; `substStepE` below
is the faithful fallible form, and the two coincide whenever the tag's
value is a string (`foldl_substStepE_agrees`). -/
def substStep (r : Record) (mem : List (String × PyVal))
    (acc : List Char × List (Tag × List Char)) (t : Tag) :
    List Char × List (Tag × List Char) :=
  if occursL (tagChars t) acc.1 then
    (replaceL (tagChars t) (pyStrV (tagValue r mem t)) acc.1,
     acc.2 ++ [(t, pyStrV (tagValue r mem t))])
  else acc

/-- One iteration of the tag loop, faithful to the typing of
`result.replace(tag, value)`: `str.replace` raises `TypeError` when the
replacement value is not a string — possible only for the
`Centre_description` tag, whose value is read raw from the memory (a falsy
non-string such as the integer 0 is stored there unconverted).  The error
carries the offending value and propagates, so later iterations do not
run. -/
def substStepE (r : Record) (mem : List (String × PyVal))
    (acc : Except PyVal (List Char × List (Tag × List Char))) (t : Tag) :
    Except PyVal (List Char × List (Tag × List Char)) :=
  match acc with
  | .error e => .error e
  | .ok (x, ev) =>
    if occursL (tagChars t) x then
      match tagValue r mem t with
      | .vStr v => .ok (replaceL (tagChars t) v x, ev ++ [(t, v)])
      | .vInt n => .error (.vInt n)
    else .ok (x, ev)

/-- `replace_tags_in_text` from `app.py`, no-raise projection: falsy text
is returned unchanged with no events; otherwise the stringified text is
run once through the tag loop.  `replace_tags_in_textE` is the faithful
fallible form; they agree whenever the stored Centre_description memory
value is a string (`replace_tags_in_textE_agrees`). -/
def replace_tags_in_text (r : Record) (mem : List (String × PyVal))
    (text : PyVal) : PyVal × List (Tag × List Char) :=
  if pyTruthyV text = false then (text, [])
  else
    let res := tagList.foldl (substStep r mem) (pyStrV text, [])
    (.vStr res.1, res.2)

/-- `replace_tags_in_text` with the `TypeError` of a non-string replacement
value made explicit. -/
def replace_tags_in_textE (r : Record) (mem : List (String × PyVal))
    (text : PyVal) : Except PyVal (PyVal × List (Tag × List Char)) :=
  if pyTruthyV text = false then .ok (text, [])
  else
    match tagList.foldl (substStepE r mem) (.ok (pyStrV text, [])) with
    | .error e => .error e
    | .ok res => .ok (.vStr res.1, res.2)

/-- `record.get(k, '')`. -/
def pyGetD (r : Record) (k : String) : PyVal :=
  match pyGet r k with
  | some v => v
  | none => .vStr []

/-- Title substitution: memory is still empty. -/
def subst_title (r : Record) : PyVal × List (Tag × List Char) :=
  replace_tags_in_text r [] (pyGetD r "title")

def memAfterTitle (r : Record) : List (String × PyVal) :=
  [("title", (subst_title r).1)]

/-- Centre_description substitution: memory holds only the title. -/
def subst_centre (r : Record) : PyVal × List (Tag × List Char) :=
  replace_tags_in_text r (memAfterTitle r) (pyGetD r "Centre_description")

def memAfterCentre (r : Record) : List (String × PyVal) :=
  memAfterTitle r ++ [("Centre_description", (subst_centre r).1)]

/-- Preheader substitution: memory now holds the substituted centre text. -/
def subst_preheader (r : Record) : PyVal × List (Tag × List Char) :=
  replace_tags_in_text r (memAfterCentre r) (pyGetD r "preheader")

def memAfterPreheader (r : Record) : List (String × PyVal) :=
  memAfterCentre r ++ [("preheader", (subst_preheader r).1)]

/-- Description substitution, last in the processing order. -/
def subst_description (r : Record) : PyVal × List (Tag × List Char) :=
  replace_tags_in_text r (memAfterPreheader r) (pyGetD r "description")

/-- Dictionary write `record[k] = v`, modelled by shadowing: `pyGet` sees
the new binding, other keys are unaffected. -/
def setField (r : Record) (k : String) (v : PyVal) : Record := (k, v) :: r

/-- `replace_text_tags` from `app.py`, no-raise projection: substitute the
four text fields in the fixed order title, Centre_description, preheader,
description, and return the updated record.  `replace_text_tagsE` is the
faithful fallible form (they agree when no substitution raises,
`replace_text_tagsE_ok`); `process_record` below uses this projection, as
approved for the counting and validation claims, whose invariants also
hold on the raise path of the source (one error entry, skip + 1). -/
def replace_text_tags (r : Record) : Record :=
  setField (setField (setField (setField r "title" (subst_title r).1)
    "Centre_description" (subst_centre r).1) "preheader" (subst_preheader r).1)
    "description" (subst_description r).1

/-- Title substitution with the `TypeError` explicit (the title stage can
never raise: the memory is empty, so the Centre_description tag value is
the string default). -/
def subst_titleE (r : Record) : Except PyVal (PyVal × List (Tag × List Char)) :=
  replace_tags_in_textE r [] (pyGetD r "title")

/-- Centre_description substitution with the `TypeError` explicit (cannot
raise either: the memory holds only the title). -/
def subst_centreE (r : Record) : Except PyVal (PyVal × List (Tag × List Char)) :=
  replace_tags_in_textE r (memAfterTitle r) (pyGetD r "Centre_description")

/-- Preheader substitution with the `TypeError` explicit: raises exactly
when the stored Centre_description value is a non-string and its token
occurs in the preheader. -/
def subst_preheaderE (r : Record) : Except PyVal (PyVal × List (Tag × List Char)) :=
  replace_tags_in_textE r (memAfterCentre r) (pyGetD r "preheader")

/-- Description substitution with the `TypeError` explicit. -/
def subst_descriptionE (r : Record) : Except PyVal (PyVal × List (Tag × List Char)) :=
  replace_tags_in_textE r (memAfterPreheader r) (pyGetD r "description")

/-- `replace_text_tags` with the substitution `TypeError` made explicit:
the memory grows with the values actually computed, and any raise aborts
the whole call — in the source it then reaches the per-record `except` of
`generate_xml_feed`, which errors the record. -/
def replace_text_tagsE (r : Record) : Except PyVal Record :=
  match replace_tags_in_textE r [] (pyGetD r "title") with
  | .error e => .error e
  | .ok (title, _) =>
    match replace_tags_in_textE r [("title", title)]
        (pyGetD r "Centre_description") with
    | .error e => .error e
    | .ok (centre, _) =>
      match replace_tags_in_textE r [("title", title), ("Centre_description", centre)]
          (pyGetD r "preheader") with
      | .error e => .error e
      | .ok (ph, _) =>
        match replace_tags_in_textE r
            [("title", title), ("Centre_description", centre), ("preheader", ph)]
            (pyGetD r "description") with
        | .error e => .error e
        | .ok (desc, _) =>
          .ok (setField (setField (setField (setField r "title" title)
            "Centre_description" centre) "preheader" ph) "description" desc)

theorem foldl_substStep_fst (r : Record) (mem : List (String × PyVal)) :
    ∀ (l : List Tag) (x : List Char) (e e' : List (Tag × List Char)),
      (l.foldl (substStep r mem) (x, e)).1 = (l.foldl (substStep r mem) (x, e')).1 := by
  intro l
  induction l with
  | nil => intro x e e'; rfl
  | cons t ts ih =>
    intro x e e'
    simp only [List.foldl_cons]
    unfold substStep
    by_cases hoc : occursL (tagChars t) x = true
    · simp only [hoc, if_pos]
      exact ih _ _ _
    · rw [if_neg (by simpa using hoc), if_neg (by simpa using hoc)]
      exact ih _ _ _

theorem foldl_substStep_events (r : Record) (mem : List (String × PyVal))
    {t : Tag} {v : List Char} :
    ∀ (l : List Tag) (acc : List Char × List (Tag × List Char)),
      (t, v) ∈ (l.foldl (substStep r mem) acc).2 →
      (t, v) ∈ acc.2 ∨ v = pyStrV (tagValue r mem t) := by
  intro l
  induction l with
  | nil => intro acc h; exact Or.inl h
  | cons u us ih =>
    intro acc h
    simp only [List.foldl_cons] at h
    rcases ih _ h with h' | h'
    · unfold substStep at h'
      by_cases hoc : occursL (tagChars u) acc.1 = true
      · simp only [hoc, if_pos] at h'
        rcases List.mem_append.mp h' with h'' | h''
        · exact Or.inl h''
        · simp only [List.mem_singleton, Prod.mk.injEq] at h''
          right; rw [h''.1]; exact h''.2
      · rw [if_neg (by simpa using hoc)] at h'
        exact Or.inl h'
    · exact Or.inr h'

theorem foldl_substStep_no_occurs (r : Record) (mem : List (String × PyVal)) :
    ∀ (l : List Tag) (x : List Char) (e : List (Tag × List Char)),
      (∀ t ∈ l, occursL (tagChars t) x = false) →
      l.foldl (substStep r mem) (x, e) = (x, e) := by
  intro l
  induction l with
  | nil => intro x e _; rfl
  | cons t ts ih =>
    intro x e h
    simp only [List.foldl_cons]
    unfold substStep
    rw [if_neg (by simp [h t (List.mem_cons_self _ _)])]
    exact ih x e (fun u hu => h u (List.mem_cons_of_mem _ hu))

theorem subst_first_tag (r : Record) (mem : List (String × PyVal))
    (x : List Char) :
    (tagList.foldl (substStep r mem) (x, [])).1 =
      ((tagList.drop 1).foldl (substStep r mem)
        (replaceL (tagChars .centreDesc) (pyStrV (tagValue r mem .centreDesc)) x, [])).1 := by
  have hstep : tagList.foldl (substStep r mem) (x, []) =
      (tagList.drop 1).foldl (substStep r mem) (substStep r mem (x, []) Tag.centreDesc) := rfl
  rw [hstep]
  unfold substStep
  by_cases hoc : occursL (tagChars .centreDesc) x = true
  · simp only [hoc, if_pos]
    exact foldl_substStep_fst r mem _ _ _ _
  · rw [if_neg (by simpa using hoc)]
    rw [replaceL_of_not_occurs (by simpa using hoc)]

theorem lookupMem_centre (r : Record) :
    lookupMem (memAfterPreheader r) "Centre_description" = (subst_centre r).1 := rfl

theorem centre_event_value (r : Record) (mem : List (String × PyVal))
    (text : PyVal) {v : List Char}
    (hv : (Tag.centreDesc, v) ∈ (replace_tags_in_text r mem text).2) :
    v = pyStrV (lookupMem mem "Centre_description") := by
  unfold replace_tags_in_text at hv
  by_cases htr : pyTruthyV text = false
  · rw [if_pos htr] at hv; simp at hv
  · rw [if_neg htr] at hv
    rcases foldl_substStep_events r mem tagList _ hv with h | h
    · simp at h
    · rw [h]; rfl

theorem foldl_substStepE_error (r : Record) (mem : List (String × PyVal))
    (e : PyVal) :
    ∀ l : List Tag, l.foldl (substStepE r mem) (.error e) = .error e := by
  intro l
  induction l with
  | nil => rfl
  | cons t ts ih => exact ih

theorem tagValue_isStr (r : Record) (mem : List (String × PyVal))
    (h : pyIsStr (lookupMem mem "Centre_description") = true) :
    ∀ t : Tag, pyIsStr (tagValue r mem t) = true := by
  intro t
  cases t with
  | centreDesc => exact h
  | centerName => rfl
  | priceMirror => rfl
  | currency => rfl
  | areaMin => rfl
  | areaMax => rfl

theorem foldl_substStepE_agrees (r : Record) (mem : List (String × PyVal))
    (hstr : ∀ t : Tag, pyIsStr (tagValue r mem t) = true) :
    ∀ (l : List Tag) (x : List Char) (ev : List (Tag × List Char)),
      l.foldl (substStepE r mem) (.ok (x, ev)) =
        .ok (l.foldl (substStep r mem) (x, ev)) := by
  intro l
  induction l with
  | nil => intro x ev; rfl
  | cons t ts ih =>
    intro x ev
    simp only [List.foldl_cons]
    by_cases hoc : occursL (tagChars t) x = true
    · obtain ⟨s, hs⟩ : ∃ s, tagValue r mem t = .vStr s := by
        cases hv : tagValue r mem t with
        | vStr s => exact ⟨s, rfl⟩
        | vInt n =>
          have hc := hstr t
          rw [hv] at hc
          simp [pyIsStr] at hc
      have hsE : substStepE r mem (.ok (x, ev)) t =
          .ok (replaceL (tagChars t) s x, ev ++ [(t, s)]) := by
        simp [substStepE, hoc, hs]
      have hsT : substStep r mem (x, ev) t =
          (replaceL (tagChars t) s x, ev ++ [(t, s)]) := by
        simp [substStep, hoc, hs, pyStrV]
      rw [hsE, hsT]
      exact ih _ _
    · have hsE : substStepE r mem (.ok (x, ev)) t = .ok (x, ev) := by
        simp [substStepE, hoc]
      have hsT : substStep r mem (x, ev) t = (x, ev) := by
        simp [substStep, hoc]
      rw [hsE, hsT]
      exact ih _ _

theorem replace_tags_in_textE_agrees (r : Record) (mem : List (String × PyVal))
    (h : pyIsStr (lookupMem mem "Centre_description") = true) (text : PyVal) :
    replace_tags_in_textE r mem text = .ok (replace_tags_in_text r mem text) := by
  unfold replace_tags_in_textE replace_tags_in_text
  by_cases htr : pyTruthyV text = false
  · rw [if_pos htr, if_pos htr]
  · rw [if_neg htr, if_neg htr]
    rw [foldl_substStepE_agrees r mem (tagValue_isStr r mem h) tagList
      (pyStrV text) []]

theorem subst_titleE_eq (r : Record) : subst_titleE r = .ok (subst_title r) :=
  replace_tags_in_textE_agrees r [] rfl _

theorem subst_centreE_eq (r : Record) : subst_centreE r = .ok (subst_centre r) :=
  replace_tags_in_textE_agrees r (memAfterTitle r) rfl _

theorem lookupMem_memAfterCentre (r : Record) :
    lookupMem (memAfterCentre r) "Centre_description" = (subst_centre r).1 := rfl

theorem subst_preheaderE_eq (r : Record)
    (hstr : pyIsStr (subst_centre r).1 = true) :
    subst_preheaderE r = .ok (subst_preheader r) :=
  replace_tags_in_textE_agrees r (memAfterCentre r)
    (by rw [lookupMem_memAfterCentre]; exact hstr) _

theorem subst_descriptionE_eq (r : Record)
    (hstr : pyIsStr (subst_centre r).1 = true) :
    subst_descriptionE r = .ok (subst_description r) :=
  replace_tags_in_textE_agrees r (memAfterPreheader r)
    (by rw [lookupMem_centre]; exact hstr) _

theorem replace_text_tagsE_ok (r : Record)
    (hstr : pyIsStr (subst_centre r).1 = true) :
    replace_text_tagsE r = .ok (replace_text_tags r) := by
  unfold replace_text_tagsE
  rcases hT : subst_title r with ⟨t1, e1⟩
  have h1 : replace_tags_in_textE r [] (pyGetD r "title") = .ok (t1, e1) := by
    rw [← hT]; exact subst_titleE_eq r
  rw [h1]
  dsimp only
  have hm1 : memAfterTitle r = [("title", t1)] := by
    simp [memAfterTitle, hT]
  rcases hC : subst_centre r with ⟨c1, e2⟩
  have h2 : replace_tags_in_textE r [("title", t1)]
      (pyGetD r "Centre_description") = .ok (c1, e2) := by
    have h := subst_centreE_eq r
    rw [hC] at h
    rw [show subst_centreE r = replace_tags_in_textE r (memAfterTitle r)
      (pyGetD r "Centre_description") from rfl, hm1] at h
    exact h
  rw [h2]
  dsimp only
  have hm2 : memAfterCentre r = [("title", t1), ("Centre_description", c1)] := by
    simp [memAfterCentre, memAfterTitle, hT, hC]
  rcases hP : subst_preheader r with ⟨p1, e3⟩
  have h3 : replace_tags_in_textE r [("title", t1), ("Centre_description", c1)]
      (pyGetD r "preheader") = .ok (p1, e3) := by
    have h := subst_preheaderE_eq r hstr
    rw [hP] at h
    rw [show subst_preheaderE r = replace_tags_in_textE r (memAfterCentre r)
      (pyGetD r "preheader") from rfl, hm2] at h
    exact h
  rw [h3]
  dsimp only
  have hm3 : memAfterPreheader r =
      [("title", t1), ("Centre_description", c1), ("preheader", p1)] := by
    simp [memAfterPreheader, memAfterCentre, memAfterTitle, hT, hC, hP]
  rcases hD : subst_description r with ⟨d1, e4⟩
  have h4 : replace_tags_in_textE r
      [("title", t1), ("Centre_description", c1), ("preheader", p1)]
      (pyGetD r "description") = .ok (d1, e4) := by
    have h := subst_descriptionE_eq r hstr
    rw [hD] at h
    rw [show subst_descriptionE r = replace_tags_in_textE r (memAfterPreheader r)
      (pyGetD r "description") from rfl, hm3] at h
    exact h
  rw [h4]
  dsimp only
  simp [replace_text_tags, hT, hC, hP, hD]

/-- C4 counterexample: when the raw `Centre_description` is the falsy
integer 0, the early return of `replace_tags_in_text` stores it in the
memory unconverted; a `Centre_description` token in the (truthy)
description then makes `result.replace(tag, 0)` raise `TypeError` — the
record is errored by the per-record handler and no replacement by the
already-substituted value takes place. -/
def rC4c : Record :=
  [("title", .vStr "T".toList), ("Centre_description", .vInt 0),
   ("description", .vStr "\x7b\x7bCentre_description\x7d\x7d!".toList)]

theorem replace_text_tags_typeerror_counterexample :
    replace_text_tagsE rC4c = Except.error (PyVal.vInt 0) ∧
    pyTruthyV (pyGetD rC4c "description") = true ∧
    occursL (tagChars .centreDesc) (pyStrV (pyGetD rC4c "description")) = true :=
  ⟨rfl, by decide, by decide⟩

/-- C4 amended: tag substitution processes title, then Centre_description,
then preheader, then description, carrying already-substituted values
forward in a per-record context.  Provided the stored Centre_description
value is a string (always the case unless the raw field is a falsy
non-string such as the integer 0), substitution does not raise — the
fallible pipeline returns exactly the substituted record — and a
`Centre_description` token in the preheader or description is replaced by
the already-substituted Centre_description value, not the raw source
value: the replacement events carry exactly that value, and the
description result is the remaining tags folded over the text in which the
token was replaced by it.  (When the stored value is a non-string,
`str.replace` raises `TypeError` and the record is errored.) -/
theorem replace_text_tags_uses_substituted_centre (r : Record)
    (hstr : pyIsStr (subst_centre r).1 = true) :
    replace_text_tagsE r = .ok (replace_text_tags r) ∧
    (∀ v, (Tag.centreDesc, v) ∈ (subst_description r).2 →
        v = pyStrV (subst_centre r).1) ∧
    (∀ v, (Tag.centreDesc, v) ∈ (subst_preheader r).2 →
        v = pyStrV (subst_centre r).1) ∧
    (pyTruthyV (pyGetD r "description") = true →
      (subst_description r).1 = .vStr ((tagList.drop 1).foldl
        (substStep r (memAfterPreheader r))
        (replaceL (tagChars .centreDesc) (pyStrV (subst_centre r).1)
          (pyStrV (pyGetD r "description")), [])).1) := by
  refine ⟨replace_text_tagsE_ok r hstr, ?_, ?_, ?_⟩
  · intro v hv
    exact centre_event_value r _ _ hv
  · intro v hv
    have h := centre_event_value r _ _ hv
    rw [h]; rfl
  · intro htr
    unfold subst_description replace_tags_in_text
    rw [if_neg (by simp [htr])]
    have h := subst_first_tag r (memAfterPreheader r) (pyStrV (pyGetD r "description"))
    have hlk : pyStrV (tagValue r (memAfterPreheader r) Tag.centreDesc) =
        pyStrV (subst_centre r).1 := rfl
    rw [hlk] at h
    simpa using h

def rC4w : Record :=
  [("description", .vStr "\x7b\x7bCentre_description\x7d\x7d!".toList),
   ("Centre_description", .vStr "Hall".toList)]

theorem replace_text_tags_uses_substituted_centre_witness :
    replace_text_tagsE rC4w = .ok (replace_text_tags rC4w) ∧
    (subst_description rC4w).1 = .vStr ((tagList.drop 1).foldl
      (substStep rC4w (memAfterPreheader rC4w))
      (replaceL (tagChars .centreDesc) (pyStrV (subst_centre rC4w).1)
        (pyStrV (pyGetD rC4w "description")), [])).1 :=
  ⟨(replace_text_tags_uses_substituted_centre rC4w (by decide)).1,
   (replace_text_tags_uses_substituted_centre rC4w (by decide)).2.2.2 (by decide)⟩

/-- C10: a tag referencing a field processed later than (or the same as)
the field being substituted resolves from the not-yet-populated context:
the `Centre_description` token in the title (memory still empty) or in the
Centre_description field itself (memory holds only the title) is replaced
by the empty string, regardless of the record's raw Centre_description
value. -/
theorem later_field_tags_resolve_empty (r : Record) :
    (∀ v, (Tag.centreDesc, v) ∈ (subst_title r).2 → v = []) ∧
    (∀ v, (Tag.centreDesc, v) ∈ (subst_centre r).2 → v = []) ∧
    (pyTruthyV (pyGetD r "title") = true →
      (subst_title r).1 = .vStr ((tagList.drop 1).foldl (substStep r [])
        (replaceL (tagChars .centreDesc) [] (pyStrV (pyGetD r "title")), [])).1) := by
  refine ⟨?_, ?_, ?_⟩
  · intro v hv
    have h := centre_event_value r _ _ hv
    rw [h]; rfl
  · intro v hv
    have h := centre_event_value r _ _ hv
    rw [h]; rfl
  · intro htr
    unfold subst_title replace_tags_in_text
    rw [if_neg (by simp [htr])]
    have h := subst_first_tag r [] (pyStrV (pyGetD r "title"))
    have hlk : pyStrV (tagValue r [] Tag.centreDesc) = ([] : List Char) := rfl
    rw [hlk] at h
    simpa using h

def rC10w : Record :=
  [("title", .vStr "\x7b\x7bCentre_description\x7d\x7dX".toList),
   ("Centre_description", .vStr "filled".toList)]

theorem later_field_tags_resolve_empty_witness :
    (subst_title rC10w).1 = .vStr ((tagList.drop 1).foldl (substStep rC10w [])
      (replaceL (tagChars .centreDesc) [] (pyStrV (pyGetD rC10w "title")), [])).1 :=
  (later_field_tags_resolve_empty rC10w).2.2 (by decide)

def rC5 : Record :=
  [("title", .vStr "\x7b\x7bcenter_name\x7d\x7d".toList),
   ("center_name", .vStr "\x7b\x7bcurrency\x7d\x7d inside".toList)]

/-- C5 counterexample: with `center_name` containing a `currency` token and
the title referencing `center_name`, the token inserted by the
`center_name` replacement is re-scanned by the later `currency` tag: the
substituted title is `EUR inside`, and the `currency` token does not appear
verbatim in the output even though it occurs in the resolved value. -/
theorem replace_tags_rescan_counterexample :
    (subst_title rC5).1 = .vStr "EUR inside".toList ∧
    occursL (tagChars .currency) "EUR inside".toList = false ∧
    occursL (tagChars .currency) (pyStrV (pyGetD rC5 "center_name")) = true := by
  decide

def rC5b : Record :=
  [("title", .vStr "\x7b\x7bcenter_name\x7d\x7d".toList),
   ("center_name", .vStr "price \x7b\x7bcurrency\x7d\x7d x".toList)]

def rC5c : Record :=
  [("title", .vStr "\x7b\x7bcenter_name\x7d\x7d".toList),
   ("center_name", .vStr "see \x7b\x7bCentre_description\x7d\x7d here".toList)]

/-- C5 amended: tag substitution is a single left-to-right pass over the
fixed tag order; a value inserted for one tag is re-examined only by tags
strictly later in that order (a `currency` token inside the resolved
`center_name` value is replaced by `EUR`, while a token of the same or an
earlier tag, such as `Centre_description`, appears verbatim); a token not
present in the field is a no-op, and a falsy/absent field yields an
unchanged result with no replacement events. -/
theorem replace_tags_single_pass :
    (∀ (r : Record) (mem : List (String × PyVal)) (v : PyVal),
       pyTruthyV v = false → replace_tags_in_text r mem v = (v, [])) ∧
    (∀ (r : Record) (mem : List (String × PyVal)) (v : PyVal),
       pyTruthyV v = true →
       (∀ t ∈ tagList, occursL (tagChars t) (pyStrV v) = false) →
         replace_tags_in_text r mem v = (.vStr (pyStrV v), [])) ∧
    (subst_title rC5b).1 = .vStr "price EUR x".toList ∧
    (subst_title rC5c).1 =
      .vStr "see \x7b\x7bCentre_description\x7d\x7d here".toList := by
  refine ⟨?_, ?_, by decide, by decide⟩
  · intro r mem v hv
    unfold replace_tags_in_text
    rw [if_pos hv]
  · intro r mem v hv hocc
    unfold replace_tags_in_text
    rw [if_neg (by simp [hv])]
    simp only
    rw [foldl_substStep_no_occurs r mem tagList _ _ hocc]

theorem replace_tags_single_pass_witness :
    replace_tags_in_text [] [] (.vStr []) = (.vStr [], []) ∧
    replace_tags_in_text [] [] (.vStr "plain".toList) =
      (.vStr "plain".toList, []) :=
  ⟨replace_tags_single_pass.1 [] [] _ (by decide),
   replace_tags_single_pass.2.1 [] [] _ (by decide) (by decide)⟩

-- ---------------------------------------------------------------------------
-- Validators (app.py lines 99-127)
-- ---------------------------------------------------------------------------

/-- The required fields, in the validator's fixed order. -/
def required_fields : List String :=
  ["vendorId", "title", "description", "categoryId", "priceType"]

/-- `validate_record` from `app.py`: the loop returns on the first field
with a falsy value (`(False, "missing '<field>'")`, modelled as
`some field`; `none` models `(True, None)`). -/
def validate_record (r : Record) : Option String :=
  required_fields.find? (fun f => !(pyTruthy (pyGet r f)))

def XSD_VENDOR_ID_MAX_LENGTH : Nat := 64

/-- The eleven allowed priceType tokens. -/
def XSD_ALLOWED_PRICE_TYPES : List (List Char) :=
  ["FIXED_PRICE".toList, "BIDDING".toList, "NEGOTIABLE".toList,
   "NOT_APPLICABLE".toList, "CREDIBLE_BID".toList, "SWAP".toList,
   "FREE".toList, "RESERVED".toList, "SEE_DESCRIPTION".toList,
   "ON_DEMAND".toList, "BIDDING_FROM".toList]

/-- Structured form of the failure reasons of `validate_xsd_constraints`. -/
inductive XsdErr where
  | vendorIdTooLong (len : Nat)
  | badPriceType (pt : List Char)
  | badCategoryId (raw : Option PyVal)
  | categoryIdNotPositive (n : Int)
deriving DecidableEq

/-- `validate_xsd_constraints` from `app.py`: vendorId length, then
priceType enumeration (only when the upper-cased priceType is non-empty),
then categoryId numeric/positivity, short-circuiting on the first failure
(`some e` models `(False, msg)`). -/
def validate_xsd_constraints (r : Record) : Option XsdErr :=
  let vendor := pyStrGetD r "vendorId"
  if vendor.length > XSD_VENDOR_ID_MAX_LENGTH then
    some (.vendorIdTooLong vendor.length)
  else
    let pt := toUpperL (pyStrGetD r "priceType")
    if pt ≠ [] ∧ pt ∉ XSD_ALLOWED_PRICE_TYPES then some (.badPriceType pt)
    else
      match pyFloatIntOpt? (pyGet r "categoryId") with
      | none => some (.badCategoryId (pyGet r "categoryId"))
      | some cid =>
        if cid ≤ 0 then some (.categoryIdNotPositive cid) else none

-- ---------------------------------------------------------------------------
-- Feed assembly (app.py lines 265-378)
-- ---------------------------------------------------------------------------

def IMAGE_COLUMNS : List String :=
  ["img_2", "img_3", "img_4", "img_5", "img_6", "img_7", "img_8", "img_9",
   "img_10"]

def ATTRIBUTE_COLUMNS : List String := ["area_sqm", "property_type", "deal_type"]

/-- `is_valid_url` from `app.py`. -/
def is_valid_url (v : Option PyVal) : Bool :=
  match v with
  | none => false
  | some x =>
    if pyTruthyV x = false then false
    else
      startsWithL "http://".toList (stripL (pyStrV x)) ||
      startsWithL "https://".toList (stripL (pyStrV x))

/-- One fully built ad element. -/
structure Listing where
  vendorId : List Char
  title : List Char
  description : List Char
  categoryId : Int
  priceType : List Char
  price : Int
  url : Option (List Char)
  images : List (List Char)
  attributes : List (String × List Char)
deriving DecidableEq

/-- The combined description source: the preheader, when truthy and
non-blank, is prepended to the (stripped) description with a blank line,
or stands alone when the description is blank (app.py lines 310-316). -/
def combined_description (r : Record) : Option PyVal :=
  if pyTruthy (pyGet r "preheader") = true ∧
      stripL (pyStrGetD r "preheader") ≠ [] then
    let base := if pyTruthy (pyGet r "description") = true
      then pyStrGetD r "description" else []
    some (.vStr (if stripL base ≠ [] then
        stripL (pyStrGetD r "preheader") ++ nl2 ++ stripL base
      else stripL (pyStrGetD r "preheader")))
  else pyGet r "description"

/-- `format_text_for_marktplaats(combined_description_source)` including
the Python truthiness check on a loosely typed argument. -/
def format_input (v : Option PyVal) : List Char :=
  match v with
  | none => []
  | some x =>
    if pyTruthyV x = true then format_text_for_marktplaats (pyStrV x) else []

/-- `vendor_id = record.get('vendorId') or f'ROW-{row_num}'`. -/
def vendor_key (rowNum : Nat) (r : Record) : PyVal :=
  if pyTruthy (pyGet r "vendorId") = true then
    (pyGet r "vendorId").getD (.vStr [])
  else .vStr ("ROW-".toList ++ pyStrV (.vInt rowNum))

/-- Listing construction for a record that passed both validators
(app.py lines 304-363).  The only step there that can raise is the
categoryId conversion `int(float(...))`; its failure is the `.error` case
(caught by the per-record `except`). -/
def build_ad (r : Record) : Except (Option PyVal) Listing :=
  match pyFloatIntOpt? (pyGet r "categoryId") with
  | none => .error (pyGet r "categoryId")
  | some cid =>
    .ok {
      vendorId := clean_text (pyGet r "vendorId")
      title := clean_text (pyGet r "title")
      description := format_input (combined_description r)
      categoryId := cid
      priceType := toUpperL (clean_text (pyGet r "priceType"))
      price := get_price_with_fallback (pyGet r "price")
        (toUpperL (clean_text (pyGet r "priceType")))
      url := if pyTruthy (pyGet r "url") = true ∧
          is_valid_url (pyGet r "url") = true
        then some (clean_text (pyGet r "url")) else none
      images :=
        (if pyTruthy (pyGet r "image_link") = true ∧
            is_valid_url (pyGet r "image_link") = true
         then [clean_text (pyGet r "image_link")] else []) ++
        IMAGE_COLUMNS.filterMap (fun col =>
          if pyTruthy (pyGet r col) = true ∧ is_valid_url (pyGet r col) = true
          then some (clean_text (pyGet r col)) else none)
      attributes := ATTRIBUTE_COLUMNS.filterMap (fun k =>
        match pyGet r k with
        | none => none
        | some v0 =>
          let final := get_attribute_value_with_fallback k
            (.vStr (stripL (pyStrV v0)))
          if final ≠ [] then some (k, final) else none)
    }

/-- One reason of an error-list entry. -/
inductive Reason where
  | missingField (f : String)
  | xsdFail (e : XsdErr)
  | buildFail (e : Option PyVal)
deriving DecidableEq

/-- One entry of `error_details`. -/
structure ErrorEntry where
  vendorId : PyVal
  reason : Reason
deriving DecidableEq

/-- The accumulator of `generate_xml_feed`: built listings and the three
statistics. -/
structure FeedState where
  listings : List Listing
  processed : Nat
  skipped : Nat
  errors : List ErrorEntry
deriving DecidableEq

/-- `error_details.append(...)` followed by `skipped_count += 1`. -/
def pushErr (st : FeedState) (k : PyVal) (reason : Reason) : FeedState :=
  { st with errors := st.errors ++ [⟨k, reason⟩], skipped := st.skipped + 1 }

/-- The activity gate
`str(record.get('Available', '')).strip().upper() in ['TRUE', 'YES', '1']`. -/
def isActive (r : Record) : Bool :=
  ["TRUE".toList, "YES".toList, "1".toList].contains
    (toUpperL (stripL (pyStrGetD r "Available")))

/-- One iteration of the record loop of `generate_xml_feed`, parameterized
over the listing builder (the fallible construction step inside the
per-record `try`). -/
def process_record (build : Record → Except (Option PyVal) Listing)
    (i : Nat) (r : Record) (st : FeedState) : FeedState :=
  if isActive r = false then st
  else
    let r' := replace_text_tags r
    match validate_record r' with
    | some f => pushErr st (vendor_key (i + 2) r) (.missingField f)
    | none =>
      match validate_xsd_constraints r' with
      | some e => pushErr st (vendor_key (i + 2) r) (.xsdFail e)
      | none =>
        match build r' with
        | .error e => pushErr st (vendor_key (i + 2) r) (.buildFail e)
        | .ok L => { st with listings := st.listings ++ [L],
                             processed := st.processed + 1 }

/-- The record loop of `generate_xml_feed` (`i` is the 0-based index;
row numbers are `i + 2`). -/
def process_records (build : Record → Except (Option PyVal) Listing) :
    Nat → List Record → FeedState → FeedState
  | _, [], st => st
  | i, r :: rs, st => process_records build (i + 1) rs (process_record build i r st)

def initFeedState : FeedState := ⟨[], 0, 0, []⟩

/-- `generate_xml_feed` from `app.py` (statistics and listing accumulation;
the XML serialization of the result is not modelled). -/
def generate_xml_feed (records : List Record) : FeedState :=
  process_records build_ad 0 records initFeedState

theorem find?_eq_some_of_first {α : Type} (p : α → Bool) :
    ∀ (l : List α) (i : Fin l.length),
      (∀ j : Fin l.length, j < i → p (l.get j) = false) →
      p (l.get i) = true → l.find? p = some (l.get i) := by
  intro l
  induction l with
  | nil => intro i; exact absurd i.isLt (by simp)
  | cons a as ih =>
    intro i hprev hi
    match i with
    | ⟨0, _⟩ =>
      simp only [List.get] at hi
      rw [List.find?_cons_of_pos _ hi]
      rfl
    | ⟨k + 1, hk⟩ =>
      have hk' : k < as.length := by simpa using hk
      have ha : p a = false := by
        have := hprev ⟨0, by simp⟩ (by simp [Fin.lt_def])
        simpa using this
      rw [List.find?_cons_of_neg _ (by simp [ha])]
      have hget : (a :: as).get ⟨k + 1, hk⟩ = as.get ⟨k, hk'⟩ := rfl
      rw [hget] at hi ⊢
      exact ih ⟨k, hk'⟩
        (fun j hj => by
          have hjlt : j.val + 1 < (a :: as).length := by
            simp
          have := hprev ⟨j.val + 1, hjlt⟩ (by simp [Fin.lt_def] at hj ⊢; omega)
          simpa using this) hi

/-- C3 counterexample: a record whose `vendorId` is the integer 0 — present
and non-blank after string coercion — is nevertheless the field reported as
missing, because the validator tests Python truthiness, not
missing-or-blank. -/
def rC3 : Record :=
  [("vendorId", .vInt 0), ("title", .vStr "t".toList),
   ("description", .vStr "d".toList), ("categoryId", .vStr "5".toList),
   ("priceType", .vStr "FIXED_PRICE".toList)]

/-- Missing or blank-after-string-coercion, the reading of the claim. -/
def missing_or_blank (v : Option PyVal) : Bool :=
  match v with
  | none => true
  | some x => (stripL (pyStrV x)).isEmpty

theorem validate_record_nonblank_counterexample :
    validate_record rC3 = some "vendorId" ∧
    missing_or_blank (pyGet rC3 "vendorId") = false := by
  decide

/-- C3 amended: the required-field check examines vendorId, title,
description, categoryId, priceType in that fixed order, reports the first
field whose value is falsy (missing, blank, or numeric zero) and
short-circuits; it passes exactly when every required field is truthy; and
in the pipeline it is evaluated on the post-substitution record, so a field
non-empty after tag substitution counts as present. -/
theorem validate_record_first_falsy (r : Record) :
    (∀ i : Fin required_fields.length,
       (∀ j : Fin required_fields.length, j < i →
          pyTruthy (pyGet r (required_fields.get j)) = true) →
       pyTruthy (pyGet r (required_fields.get i)) = false →
       validate_record r = some (required_fields.get i)) ∧
    (validate_record r = none ↔
       ∀ f ∈ required_fields, pyTruthy (pyGet r f) = true) ∧
    (∀ (build : Record → Except (Option PyVal) Listing) (i : Nat)
        (st : FeedState) (f : String),
       isActive r = true →
       validate_record (replace_text_tags r) = some f →
       process_record build i r st =
         pushErr st (vendor_key (i + 2) r) (.missingField f)) := by
  refine ⟨?_, ?_, ?_⟩
  · intro i hprev hi
    apply find?_eq_some_of_first
    · intro j hj
      have h := hprev j hj
      simp only [List.get_eq_getElem] at h
      simp [h]
    · have h := hi
      simp only [List.get_eq_getElem] at h
      simp [h]
  · unfold validate_record
    rw [List.find?_eq_none]
    constructor
    · intro h f hf
      have := h f hf
      simpa using this
    · intro h f hf
      simp [h f hf]
  · intro build i st f hact hvr
    unfold process_record
    rw [if_neg (by simp [hact])]
    simp only [hvr]

def rC3w : Record :=
  [("Available", .vStr "YES".toList), ("vendorId", .vStr "v".toList)]

theorem validate_record_first_falsy_witness :
    validate_record rC3w = some "title" ∧
    process_record (fun _ => Except.error none) 0 rC3w initFeedState =
      pushErr initFeedState (vendor_key 2 rC3w) (.missingField "title") :=
  ⟨(validate_record_first_falsy rC3w).1 ⟨1, by decide⟩ (by decide) (by decide),
   (validate_record_first_falsy rC3w).2.2 _ 0 initFeedState "title"
     (by decide) (by decide)⟩

/-- C7 counterexample: a record with an empty `priceType` (and otherwise
valid fields) passes `validate_xsd_constraints` — the validator does not
fail on an empty priceType, contrary to the claim. -/
def rC7 : Record :=
  [("vendorId", .vStr "v".toList), ("priceType", .vStr []),
   ("categoryId", .vStr "5".toList)]

theorem validate_xsd_empty_priceType_passes :
    validate_xsd_constraints rC7 = none ∧
    pyStrGetD rC7 "priceType" = [] := by
  decide

/-- C7 amended: with the vendorId length check passing, the constraint
validator fails with a priceType reason exactly when the upper-cased
priceType is non-empty and outside the eleven allowed enumeration tokens;
an empty priceType never produces a priceType failure at this stage (it is
passed through, guarded upstream by the required-field check). -/
theorem validate_xsd_priceType_enum (r : Record)
    (hv : (pyStrGetD r "vendorId").length ≤ XSD_VENDOR_ID_MAX_LENGTH) :
    (toUpperL (pyStrGetD r "priceType") ≠ [] ∧
       toUpperL (pyStrGetD r "priceType") ∉ XSD_ALLOWED_PRICE_TYPES →
       validate_xsd_constraints r =
         some (.badPriceType (toUpperL (pyStrGetD r "priceType")))) ∧
    (toUpperL (pyStrGetD r "priceType") = [] →
       ∀ q, validate_xsd_constraints r ≠ some (.badPriceType q)) ∧
    XSD_ALLOWED_PRICE_TYPES.length = 11 := by
  have hv' : ¬ ((pyStrGetD r "vendorId").length > XSD_VENDOR_ID_MAX_LENGTH) :=
    Nat.not_lt.mpr hv
  refine ⟨?_, ?_, by decide⟩
  · intro hpt
    unfold validate_xsd_constraints
    rw [if_neg hv', if_pos hpt]
  · intro hempty q
    unfold validate_xsd_constraints
    rw [if_neg hv', if_neg (by simp [hempty])]
    cases hcid : pyFloatIntOpt? (pyGet r "categoryId") with
    | none => simp
    | some cid =>
      by_cases hc : cid ≤ 0
      · simp [hc]
      · simp [hc]

def rC7w : Record :=
  [("vendorId", .vStr "v".toList), ("priceType", .vStr "WEIRD".toList),
   ("categoryId", .vStr "5".toList)]

theorem validate_xsd_priceType_enum_witness :
    validate_xsd_constraints rC7w = some (.badPriceType "WEIRD".toList) ∧
    XSD_ALLOWED_PRICE_TYPES.length = 11 :=
  ⟨(validate_xsd_priceType_enum rC7w (by decide)).1 (by decide),
   (validate_xsd_priceType_enum rC7w (by decide)).2.2⟩

theorem process_record_inactive (build : Record → Except (Option PyVal) Listing)
    (i : Nat) (r : Record) (st : FeedState) (h : isActive r = false) :
    process_record build i r st = st := by
  simp only [process_record]
  rw [if_pos h]

theorem process_record_counts (build : Record → Except (Option PyVal) Listing)
    (i : Nat) (r : Record) (st : FeedState) :
    (process_record build i r st).processed + (process_record build i r st).skipped =
      st.processed + st.skipped + (if isActive r = true then 1 else 0) ∧
    (process_record build i r st).skipped + st.errors.length =
      st.skipped + (process_record build i r st).errors.length := by
  simp only [process_record]
  by_cases hact : isActive r = false
  · rw [if_pos hact]
    simp [hact]
  · have hact' : isActive r = true := by simpa using hact
    rw [if_neg hact]
    cases hvr : validate_record (replace_text_tags r) with
    | some f =>
      simp only [pushErr, hact', if_pos]
      constructor <;> (try simp) <;> omega
    | none =>
      cases hx : validate_xsd_constraints (replace_text_tags r) with
      | some e =>
        simp only [pushErr, hact', if_pos]
        constructor <;> (try simp) <;> omega
      | none =>
        cases hb : build (replace_text_tags r) with
        | error e =>
          simp only [pushErr, hact', if_pos]
          constructor <;> (try simp) <;> omega
        | ok L =>
          simp only [hact', if_pos]
          constructor <;> (try simp) <;> omega

theorem process_records_counts (build : Record → Except (Option PyVal) Listing) :
    ∀ (l : List Record) (i : Nat) (st : FeedState),
      (process_records build i l st).processed +
        (process_records build i l st).skipped +
        (l.filter (fun r => !(isActive r))).length =
        st.processed + st.skipped + l.length ∧
      (process_records build i l st).skipped + st.errors.length =
        st.skipped + (process_records build i l st).errors.length := by
  intro l
  induction l with
  | nil => intro i st; simp [process_records]
  | cons r rs ih =>
    intro i st
    simp only [process_records]
    obtain ⟨ih1, ih2⟩ := ih (i + 1) (process_record build i r st)
    obtain ⟨s1, s2⟩ := process_record_counts build i r st
    constructor
    · by_cases hact : isActive r = true
      · rw [List.filter_cons_of_neg (by simp [hact])]
        rw [if_pos hact] at s1
        rw [List.length_cons]
        omega
      · rw [List.filter_cons_of_pos (by simp at hact; simp [hact])]
        rw [if_neg hact] at s1
        rw [List.length_cons, List.length_cons]
        omega
    · omega

/-- C2: the feed assembler's invariants — processed plus skipped plus the
number of inactive records equals the total; the skip counter equals the
length of the error list (each skipped non-inactive record contributes
exactly one entry); and a record whose `Available` flag is not one of the
truthy tokens (case-insensitively) leaves the state untouched, so it
reaches neither the listings nor the error list. -/
theorem generate_xml_feed_invariants (records : List Record) :
    (generate_xml_feed records).processed + (generate_xml_feed records).skipped +
      (records.filter (fun r => !(isActive r))).length = records.length ∧
    (generate_xml_feed records).skipped =
      (generate_xml_feed records).errors.length ∧
    (∀ (build : Record → Except (Option PyVal) Listing) (i : Nat) (r : Record)
       (st : FeedState), isActive r = false → process_record build i r st = st) := by
  obtain ⟨h1, h2⟩ := process_records_counts build_ad records 0 initFeedState
  have h1' : (process_records build_ad 0 records initFeedState).processed +
      (process_records build_ad 0 records initFeedState).skipped +
      (records.filter (fun r => !(isActive r))).length = records.length := by
    simpa [initFeedState] using h1
  have h2' : (process_records build_ad 0 records initFeedState).skipped =
      (process_records build_ad 0 records initFeedState).errors.length := by
    have := h2
    simp [initFeedState] at this
    simpa using this
  exact ⟨h1', h2', fun b i r st h' => process_record_inactive b i r st h'⟩

def rC2w : Record := [("Available", .vStr "NO".toList)]

theorem generate_xml_feed_invariants_witness :
    (generate_xml_feed [rC2w]).processed + (generate_xml_feed [rC2w]).skipped +
      ([rC2w].filter (fun r => !(isActive r))).length = [rC2w].length ∧
    (generate_xml_feed [rC2w]).skipped =
      (generate_xml_feed [rC2w]).errors.length ∧
    process_record (fun _ => Except.error none) 5 rC2w initFeedState =
      initFeedState :=
  ⟨(generate_xml_feed_invariants [rC2w]).1,
   (generate_xml_feed_invariants [rC2w]).2.1,
   (generate_xml_feed_invariants [rC2w]).2.2 _ 5 rC2w initFeedState (by decide)⟩

/-- C8: a failure of the listing-construction step on an otherwise-valid
active record is absorbed within the per-record step — exactly one
diagnostic error entry is appended and the skip counter incremented, the
listings and processed count are untouched — and the batch loop continues
with the remaining records from that state; no per-record failure
propagates out of the loop. -/
theorem build_failure_isolated (build : Record → Except (Option PyVal) Listing)
    (i : Nat) (r : Record) (st : FeedState) (e : Option PyVal)
    (rest : List Record)
    (hact : isActive r = true)
    (hvr : validate_record (replace_text_tags r) = none)
    (hxsd : validate_xsd_constraints (replace_text_tags r) = none)
    (hb : build (replace_text_tags r) = .error e) :
    process_record build i r st =
      { st with
          skipped := st.skipped + 1
          errors := st.errors ++ [⟨vendor_key (i + 2) r, .buildFail e⟩] } ∧
    (process_record build i r st).processed = st.processed ∧
    (process_record build i r st).listings = st.listings ∧
    process_records build i (r :: rest) st =
      process_records build (i + 1) rest
        { st with
            skipped := st.skipped + 1
            errors := st.errors ++ [⟨vendor_key (i + 2) r, .buildFail e⟩] } := by
  have h1 : process_record build i r st =
      { st with
          skipped := st.skipped + 1
          errors := st.errors ++ [⟨vendor_key (i + 2) r, .buildFail e⟩] } := by
    simp only [process_record]
    rw [if_neg (by simp [hact])]
    simp only [hvr, hxsd, hb]
    rfl
  refine ⟨h1, by rw [h1], by rw [h1], ?_⟩
  simp only [process_records]
  rw [h1]

def rC8w : Record :=
  [("Available", .vStr "TRUE".toList), ("vendorId", .vStr "v1".toList),
   ("title", .vStr "T".toList), ("description", .vStr "D".toList),
   ("categoryId", .vStr "5".toList), ("priceType", .vStr "FIXED_PRICE".toList)]

theorem build_failure_isolated_witness :
    process_record (fun _ => Except.error none) 0 rC8w initFeedState =
      { initFeedState with
          skipped := initFeedState.skipped + 1
          errors := initFeedState.errors ++
            [⟨vendor_key 2 rC8w, .buildFail none⟩] } ∧
    (process_record (fun _ => Except.error none) 0 rC8w initFeedState).processed =
      initFeedState.processed ∧
    (process_record (fun _ => Except.error none) 0 rC8w initFeedState).listings =
      initFeedState.listings ∧
    process_records (fun _ => Except.error none) 0 [rC8w] initFeedState =
      process_records (fun _ => Except.error none) 1 []
        { initFeedState with
            skipped := initFeedState.skipped + 1
            errors := initFeedState.errors ++
              [⟨vendor_key 2 rC8w, .buildFail none⟩] } :=
  build_failure_isolated (fun _ => Except.error none) 0 rC8w initFeedState none []
    (by decide) (by decide) (by decide) rfl
